import Mathlib

/-!
A shallow embedding of `src/chesslib/board.py` (class `Board`) of the
chess-python repository, together with an interface model of the `pieces`
module (the spec's Piece Catalog), which is imported by `board.py` but not
present under `src/`.

Conventions of the embedding:
* Python dicts of squares become association lists `List (String × Piece)`
  (`sqLookup` is first-match lookup, `sqSet` is update-or-append,
  `sqErase` removes a key), keeping the dict's iteration order.
* Python exceptions become `Except PyErr` / error components; `PyErr`
  covers both the `ChessError` subclasses raised by `board.py` and the
  builtin `KeyError` / `AttributeError` that `board.py` can raise.
* Machine-independent values (counters) are `Nat` (they are non-negative
  Python ints, no overflow in Python).
* `Board.move` mutates `self` in place; the embedding threads the state
  explicitly and returns the post-call state together with the raised
  error, so that partial mutation before an exception is observable.
* The class-level attribute `Board.history` (a mutable list shared by all
  instances, only ever mutated via `append`, never rebound per instance)
  is modelled as a separate "global" `List String` threaded through
  `moveResult` next to the per-instance `Board` record.
-/

namespace Chess

/-- Modelled from the spec: the two piece colors (spec §3 Data Model,
"immutable color (white|black)"); `board.py` represents them as the
strings "white"/"black". -/
inductive Color where
  | white
  | black
deriving DecidableEq, Repr

/-- Modelled from the spec: the closed set of piece kinds
{pawn, knight, bishop, rook, queen, king} (spec §3). -/
inductive Kind where
  | pawn
  | knight
  | bishop
  | rook
  | queen
  | king
deriving DecidableEq, Repr

/-- Modelled from the spec: a piece is a color plus a kind tag (spec §3).
The `pieces` module is not under `src/`; the board reference a piece
holds (`place`) carries no information beyond the board itself and is
dropped. -/
structure Piece where
  kind : Kind
  color : Color
deriving DecidableEq, Repr

/-- The Python string representation of a color. -/
def colorStr : Color → String
  | Color.white => "white"
  | Color.black => "black"

/-- Recognize the two color strings accepted by the guards
`color not in ("black", "white")` in `board.py`. -/
def parseColor (s : String) : Option Color :=
  if s = "white" then some Color.white
  else if s = "black" then some Color.black
  else none

/-- Board.get_enemy: "white" maps to "black", anything else to "white";
it is only ever applied to valid colors, modelled on `Color`. -/
def get_enemy : Color → Color
  | Color.white => Color.black
  | Color.black => Color.white

/-- Modelled from the spec: lowercase single-character kind tag
(P/N/B/R/Q/K letters, spec §3). -/
def kindChar : Kind → Char
  | Kind.pawn => 'p'
  | Kind.knight => 'n'
  | Kind.bishop => 'b'
  | Kind.rook => 'r'
  | Kind.queen => 'q'
  | Kind.king => 'k'

/-- Modelled from the spec: the piece attribute `abbreviation` read by
`Board._finish_move` and emitted verbatim by `Board.export`. Spec §3:
"a single-character abbreviation (P/N/B/R/Q/K, uppercase=white,
lowercase=black in serialized form)"; since `Board.export` writes
`piece.abbreviation` with no case adjustment and the spec requires the
serialized form to be cased by color, the attribute itself is cased. -/
def Piece.abbreviation (p : Piece) : Char :=
  match p.color with
  | Color.white => (kindChar p.kind).toUpper
  | Color.black => kindChar p.kind

/-- Modelled from the spec: the `pieces.piece(letter)` factory used by
`Board.load`; letter case selects the color (spec §4.7: "letters denote
pieces (case = color)"), unknown letters fail (modelled as `none`). -/
def pieceOfLetter : Char → Option Piece
  | 'P' => some ⟨Kind.pawn, Color.white⟩
  | 'N' => some ⟨Kind.knight, Color.white⟩
  | 'B' => some ⟨Kind.bishop, Color.white⟩
  | 'R' => some ⟨Kind.rook, Color.white⟩
  | 'Q' => some ⟨Kind.queen, Color.white⟩
  | 'K' => some ⟨Kind.king, Color.white⟩
  | 'p' => some ⟨Kind.pawn, Color.black⟩
  | 'n' => some ⟨Kind.knight, Color.black⟩
  | 'b' => some ⟨Kind.bishop, Color.black⟩
  | 'r' => some ⟨Kind.rook, Color.black⟩
  | 'q' => some ⟨Kind.queen, Color.black⟩
  | 'k' => some ⟨Kind.king, Color.black⟩
  | _ => none

/-- The occupied-squares dict of a `Board` (coordinate string to piece). -/
abbrev Squares := List (String × Piece)

/-- Dict lookup (first match; Python dicts have unique keys). -/
def sqLookup : Squares → String → Option Piece
  | [], _ => none
  | (k, p) :: rest, c => if k = c then some p else sqLookup rest c

/-- Dict deletion, `del self[p1]` in `Board._do_move`. -/
def sqErase : Squares → String → Squares
  | [], _ => []
  | (k, p) :: rest, c => if k = c then sqErase rest c else (k, p) :: sqErase rest c

/-- Dict assignment `self[coord] = piece`: update in place if the key is
present, append otherwise. -/
def sqSet : Squares → String → Piece → Squares
  | [], c, p => [(c, p)]
  | (k, q) :: rest, c, p => if k = c then (k, p) :: rest else (k, q) :: sqSet rest c p

/-- The state of one `Board` instance: the square dict plus the
per-instance metadata fields assigned in `Board.load` and mutated by
`Board.move` / `Board._finish_move`. `history` is deliberately absent:
in the source it is a class-level list shared by all instances (see
`observed_history`). `captured_pieces` is declared in the source but
never read or written and is omitted. -/
structure Board where
  squares : Squares
  player_turn : String
  castling : String
  en_passant : String
  halfmove_clock : Nat
  fullmove_number : Nat
  in_check : String × Bool
  in_mate : String × Bool
deriving DecidableEq, Repr

/-- Python `str.upper()` restricted to ASCII, which matches Python on all
strings appearing in the engine (coordinates, color names). -/
def pyUpper (s : String) : String := String.mk (s.data.map Char.toUpper)

/-- Python `str.lower()` restricted to ASCII (used for move text). -/
def pyLower (s : String) : String := String.mk (s.data.map Char.toLower)

/-- RANK_REGEX from board.py, the anchored pattern of one character A-Z
followed by one character 1-8. -/
def isCoordFormat (s : String) : Bool :=
  match s.data with
  | [a, d] => (decide ('A' ≤ a) && decide (a ≤ 'Z')) && (decide ('1' ≤ d) && decide (d ≤ '8'))
  | _ => false

/-- Errors raised by `board.py`: the `ChessError` subclasses it actually
raises plus the Python builtins `KeyError` (malformed key in
`__getitem__`) and `AttributeError` (attribute access on `None`). -/
inductive PyErr where
  | keyError
  | attributeError
  | invalidColor
  | invalidMove
  | notYourTurn
deriving DecidableEq, Repr

/-- Board.__getitem__ for a string key: uppercase the key, raise KeyError
unless it matches RANK_REGEX, otherwise return the occupant or None (the
internal KeyError of a missing valid key is caught and becomes None). -/
def getitemStr (b : Board) (s : String) : Except PyErr (Option Piece) :=
  let c := pyUpper s
  if isCoordFormat c then Except.ok (sqLookup b.squares c) else Except.error PyErr.keyError

/-- Modelled from the spec: the Piece Catalog's only operation (spec
§4.3 `pseudoLegalDestinations`), i.e. the `possible_moves` method of
the absent `pieces` module: given the piece, its coordinate and the
current square dict, the list of pseudo-legal destination coordinates. -/
def Catalog : Type := Piece → String → Squares → List String

/-- A file letter A-H. -/
def validFile (a : Char) : Bool :=
  a == 'A' || a == 'B' || a == 'C' || a == 'D' || a == 'E' || a == 'F' || a == 'G' || a == 'H'

/-- A rank digit 1-8. -/
def validRank (d : Char) : Bool :=
  d == '1' || d == '2' || d == '3' || d == '4' || d == '5' || d == '6' || d == '7' || d == '8'

/-- A coordinate string on the 8x8 board: a letter A-H then a digit 1-8
(the strings produced by the source's letter_notation). -/
def validSq (s : String) : Bool :=
  match s.data with
  | [a, d] => validFile a && validRank d
  | _ => false

/-- Modelled from the spec: the Piece Catalog contract (spec §4.3,
"destinations are in-bounds"): every destination it produces is a valid
uppercase board coordinate. -/
def CatalogOk (cat : Catalog) : Prop :=
  ∀ pc c sqs m, m ∈ cat pc c sqs → validSq m = true

/-- The body of Board.all_possible_moves after its color guard: for each
key, if the occupant has the asked color, concatenate its catalog moves
(appending an empty move list is a no-op, so the source's truthiness
check on `moves` is dropped). -/
def all_possible_movesC (cat : Catalog) (b : Board) (color : Color) : List String :=
  b.squares.flatMap (fun e =>
    match sqLookup b.squares e.1 with
    | some pc => if pc.color = color then cat pc e.1 b.squares else []
    | none => [])

/-- Board.all_possible_moves: InvalidColor guard then the concatenation
of the side's catalog moves. -/
def all_possible_moves (cat : Catalog) (b : Board) (color : String) : Except PyErr (List String) :=
  match parseColor color with
  | none => Except.error PyErr.invalidColor
  | some c => Except.ok (all_possible_movesC cat b c)

/-- Board.get_king_position: first key holding a king of the given color
string, None when there is none (the source function falls off the end).
Python dict keys are unique, so the source's re-lookup `self[pos]` is
this entry's own piece. -/
def get_king_position (b : Board) (color : String) : Option String :=
  (b.squares.find? (fun e =>
    decide (e.2.kind = Kind.king ∧ colorStr e.2.color = color))).map (fun e => e.1)

/-- Board.get_king: InvalidColor guard, then `self[get_king_position(color)]`;
when the position is None, `__getitem__(None)` hits the dict KeyError
branch and yields None. -/
def get_king (b : Board) (color : String) : Except PyErr (Option Piece) :=
  match parseColor color with
  | none => Except.error PyErr.invalidColor
  | some _ =>
    match get_king_position b color with
    | none => Except.ok none
    | some pos => getitemStr b pos

/-- The eager Python-2 `map(self.__getitem__, moves)` in Board.is_in_check:
looks every destination up, propagating the first KeyError. -/
def mapGetitem (b : Board) : List String → Except PyErr (List (Option Piece))
  | [] => Except.ok []
  | m :: rest =>
    match getitemStr b m with
    | Except.error e => Except.error e
    | Except.ok v =>
      match mapGetitem b rest with
      | Except.error e => Except.error e
      | Except.ok vs => Except.ok (v :: vs)

/-- Board.is_in_check: InvalidColor guard, then membership of the king
object (None when absent) in the list of occupants of the enemy's
pseudo-legal destinations. Python compares the king object with `==`
(identity for pieces); on boards with at most one king per color this
coincides with the structural equality used here. -/
def is_in_check (cat : Catalog) (b : Board) (color : String) : Except PyErr Bool :=
  match parseColor color with
  | none => Except.error PyErr.invalidColor
  | some c =>
    match get_king b color with
    | Except.error e => Except.error e
    | Except.ok king =>
      match mapGetitem b (all_possible_movesC cat b (get_enemy c)) with
      | Except.error e => Except.error e
      | Except.ok occs => Except.ok (decide (king ∈ occs))

/-- Board._do_move: read the piece at p1, delete p1, assign p2. Both keys
are canonical uppercase coordinates at every call site; on an empty p1
the source raises KeyError at the delete, never reached in the program
(modelled as the identity). -/
def do_move (b : Board) (p1 p2 : String) : Board :=
  match sqLookup b.squares p1 with
  | some pc => { b with squares := sqSet (sqErase b.squares p1) p2 pc }
  | none => b

/-- Board.is_in_check_after_move: simulate p1-to-p2 on a deep copy and
ask is_in_check for the color of the piece at p1 on the original board;
`self[p1].color` on an empty p1 raises AttributeError. -/
def is_in_check_after_move (cat : Catalog) (b : Board) (p1 p2 : String) : Except PyErr Bool :=
  match getitemStr b p1 with
  | Except.error e => Except.error e
  | Except.ok none => Except.error PyErr.attributeError
  | Except.ok (some pc) => is_in_check cat (do_move b p1 p2) (colorStr pc.color)

/-- The add_move closure of Board.all_legal_piece_moves mapped over the
pseudo-legal moves: `add_move` returns the move when the simulation says
`is False`, and (implicitly) None otherwise, so the collected list keeps
a None placeholder for every unsafe candidate. The pathos process pool's
`map` collects results in input order; a worker exception re-raises at
collection, modelled by propagating the first error. -/
def addMoves (cat : Catalog) (b : Board) (origin : String) : List String → Except PyErr (List (Option String))
  | [] => Except.ok []
  | m :: rest =>
    match is_in_check_after_move cat b origin m with
    | Except.error e => Except.error e
    | Except.ok chk =>
      match addMoves cat b origin rest with
      | Except.error e => Except.error e
      | Except.ok l => Except.ok ((if chk = false then some m else none) :: l)

/-- Board.all_legal_piece_moves: `self[piece].possible_moves(piece)`
(AttributeError when the origin is empty, KeyError when malformed), then
the pool-mapped add_move results. -/
def all_legal_piece_moves (cat : Catalog) (b : Board) (origin : String) : Except PyErr (List (Option String)) :=
  match getitemStr b origin with
  | Except.error e => Except.error e
  | Except.ok none => Except.error PyErr.attributeError
  | Except.ok (some pc) => addMoves cat b origin (cat pc origin b.squares)

/-- Board.all_legal_side_moves: after the InvalidColor guard it submits
`add_move` to a `multiprocessing.Pool` with `apply_async` and returns
`result` immediately. The closure cannot be pickled and, even when a
task runs, it runs in a worker process whose mutation of `result` never
reaches the parent; no AsyncResult is ever collected, so errors are
swallowed and the parent's dict is returned empty, whatever the board. -/
def all_legal_side_moves (_cat : Catalog) (_b : Board) (color : String) :
    Except PyErr (List (String × List (Option String))) :=
  match parseColor color with
  | none => Except.error PyErr.invalidColor
  | some _ => Except.ok []

/-- The sequential reading of the add_move closure in
Board.all_legal_side_moves, run in-process once per key as the source's
comment describes ("run this statement for all coord in self.keys()"):
keep the coordinate when the occupant has the asked color and its
all_legal_piece_moves list is non-empty (Python truthiness of the list,
which counts None placeholders). -/
def sideMovesSeq (cat : Catalog) (b : Board) (color : String) :
    Squares → Except PyErr (List (String × List (Option String)))
  | [] => Except.ok []
  | e :: rest =>
    match sqLookup b.squares e.1 with
    | some pc =>
      if colorStr pc.color = color then
        match all_legal_piece_moves cat b e.1 with
        | Except.error er => Except.error er
        | Except.ok l =>
          match sideMovesSeq cat b color rest with
          | Except.error er => Except.error er
          | Except.ok tail => Except.ok (if l = [] then tail else (e.1, l) :: tail)
      else sideMovesSeq cat b color rest
    | none => sideMovesSeq cat b color rest

/-- Modelled from the spec: `legalMovesForSide` (spec §4.4) as the
source intends it, i.e. Board.all_legal_side_moves with its add_move
executed sequentially in the parent process (spec §9 directs replacing
the misapplied worker pool by exactly this). -/
def all_legal_side_moves_seq (cat : Catalog) (b : Board) (color : String) :
    Except PyErr (List (String × List (Option String))) :=
  match parseColor color with
  | none => Except.error PyErr.invalidColor
  | some _ => sideMovesSeq cat b color b.squares

/-- Board._finish_move: bump the fullmove number after black, increment
the halfmove clock, flip the turn, then reset the clock on a pawn
abbreviation 'P' or on a capture, and append the move text to the shared
history list. -/
def finish_move (hist : List String) (b : Board) (piece : Piece) (dest : Option Piece)
    (p2 : String) : List String × Board :=
  let full := if piece.color = Color.black then b.fullmove_number + 1 else b.fullmove_number
  let clock1 := b.halfmove_clock + 1
  let turn := colorStr (get_enemy piece.color)
  let abbr := piece.abbreviation
  let abbrS : String := if abbr = 'P' then "" else String.mk [abbr]
  let clock2 : Nat := if abbr = 'P' then 0 else clock1
  let movetext : String :=
    match dest with
    | none => abbrS ++ pyLower p2
    | some _ => abbrS ++ "x" ++ pyLower p2
  let clock3 : Nat :=
    match dest with
    | none => clock2
    | some _ => 0
  (hist ++ [movetext],
   { b with fullmove_number := full, halfmove_clock := clock3, player_turn := turn })

/-- Board.move after the initial uppercasing: resolve both squares
(KeyError on malformed input), read `piece.color` (AttributeError when
the origin is empty), enforce the turn, compute the legal list, reject
destinations outside it, then mutate: _do_move, _finish_move, and the
final is_in_check(enemy) that sets the in_check flag. An exception from
that final check (only possible for a catalog emitting malformed
coordinates) leaves the board already mutated. -/
def moveCore (cat : Catalog) (hist : List String) (b : Board) (p1 p2 : String) :
    Option PyErr × List String × Board :=
  match getitemStr b p1 with
  | Except.error e => (some e, hist, b)
  | Except.ok piece? =>
    match getitemStr b p2 with
    | Except.error e => (some e, hist, b)
    | Except.ok dest =>
      match piece? with
      | none => (some PyErr.attributeError, hist, b)
      | some piece =>
        if b.player_turn ≠ colorStr piece.color then (some PyErr.notYourTurn, hist, b)
        else
          match all_legal_piece_moves cat b p1 with
          | Except.error e => (some e, hist, b)
          | Except.ok legal =>
            if some p2 ∈ legal then
              let b1 := do_move b p1 p2
              let hb2 := finish_move hist b1 piece dest p2
              match is_in_check cat hb2.2 (colorStr (get_enemy piece.color)) with
              | Except.error e => (some e, hb2.1, hb2.2)
              | Except.ok chk =>
                (none, hb2.1,
                 if chk then { hb2.2 with in_check := (colorStr (get_enemy piece.color), true) }
                 else { hb2.2 with in_check := ("", false) })
            else (some PyErr.invalidMove, hist, b)

/-- Board.move: uppercase both arguments, then run the move logic. The
first component is the raised error (none on success), the second the
class-level history after the call, the third the instance state after
the call. -/
def moveResult (cat : Catalog) (hist : List String) (b : Board) (p1 p2 : String) :
    Option PyErr × List String × Board :=
  moveCore cat hist b (pyUpper p1) (pyUpper p2)

/-- Board.evaluate_board: when a side is flagged in check, set the mate
flag, fetch that side's all_legal_side_moves dict; when the dict is
empty, reset the mate flag and return the empty status string; when it
is non-empty, return the checkmate message. When nobody is flagged the
function falls off the end, returning Python None. -/
def evaluate_board (cat : Catalog) (b : Board) : Except PyErr (Option String × Board) :=
  if b.in_check.2 then
    let side := b.in_check.1
    let b1 := { b with in_mate := (side, true) }
    match all_legal_side_moves cat b1 side with
    | Except.error e => Except.error e
    | Except.ok lm =>
      if lm = [] then Except.ok (some "", { b1 with in_mate := ("", false) })
      else if b1.in_mate.2 then Except.ok (some (side ++ " is in checkmate!"), b1)
      else Except.ok (none, b1)
  else Except.ok (none, b)

/-- The move history any given instance observes. `Board.history` is a
class attribute holding one shared mutable list: `_finish_move` appends
to it in place and no instance ever rebinds it, so every instance (the
board argument is irrelevant) observes the single program-wide list. -/
def observed_history (globalHist : List String) (_b : Board) : List String := globalHist

/-! The State Codec: Board.load and Board.export. -/

/-- Numeric value of a digit character. -/
def charVal (c : Char) : Nat := c.toNat - 48

/-- The digit character of a value below ten. -/
def digitChar (n : Nat) : Char := Char.ofNat (48 + n)

/-- Little-endian decimal digits with explicit fuel (kernel-reducible;
with fuel at least n it agrees with `Nat.digits 10 n`). -/
def digitsAux : Nat → Nat → List Nat
  | _, 0 => []
  | 0, _ => []
  | fuel + 1, n + 1 => ((n + 1) % 10) :: digitsAux fuel ((n + 1) / 10)

/-- Python `str` of a non-negative int: most-significant-first decimal
digits, "0" for zero. -/
def natChars (n : Nat) : List Char :=
  if n = 0 then ['0'] else (digitsAux n n).reverse.map digitChar

/-- Python `int` of a string, restricted to the plain non-empty digit
strings the codec produces (signs and surrounding whitespace, which
Python also accepts, never occur in canonical output). -/
def parseNatChars (cs : List Char) : Option Nat :=
  if cs ≠ [] ∧ cs.all Char.isDigit then
    some (cs.foldl (fun a c => a * 10 + charVal c) 0)
  else none

/-- The blank expansion of Board.load: `re.sub` replaces every digit by
that many spaces, character by character. -/
def expand (cs : List Char) : List Char :=
  cs.flatMap (fun c => if c.isDigit then List.replicate (charVal c) ' ' else [c])

/-- Maximal runs of equal characters, as `itertools.groupby` yields them
(run character and run length, in order). -/
def runsSplit : List Char → List (Char × Nat)
  | [] => []
  | c :: rest =>
    match runsSplit rest with
    | [] => [(c, 1)]
    | (k, n) :: rs => if k = c then (c, n + 1) :: rs else (c, 1) :: (k, n) :: rs

/-- One run re-emitted by the `join` helper of Board.export: a space run
becomes its decimal length, any other run is kept verbatim. -/
def rleEmit (kn : Char × Nat) : List Char :=
  if kn.1 = ' ' then natChars kn.2 else List.replicate kn.2 kn.1

/-- The replace_spaces helper of Board.export: groupby the string and
re-emit each run. -/
def rleEncode (cs : List Char) : List Char := (runsSplit cs).flatMap rleEmit

/-- Python `str.split(sep)` with an explicit one-character separator
(empty parts preserved, `""` yields one empty part). -/
def splitChar (sep : Char) : List Char → List (List Char)
  | [] => [[]]
  | c :: rest =>
    match splitChar sep rest with
    | [] => [[]]
    | s :: ss => if c = sep then [] :: s :: ss else (c :: s) :: ss

/-- The file letter of column y (axis_y of board.py). -/
def axisYChar (y : Nat) : Char := ['A', 'B', 'C', 'D', 'E', 'F', 'G', 'H'].getD y '?'

/-- The coordinate string of file index y (0-7) and rank number n (1-8),
as built by the source's letter_notation. -/
def coordStr (y n : Nat) : String := String.mk [axisYChar y, digitChar n]

/-- One rank of Board.export: the occupant abbreviation of
`self[letter+str(number)]` for each letter A..H, space when empty
(the lookup equals `sqLookup` because the key is a canonical
coordinate). -/
def rowChars (b : Board) (n : Nat) : List Char :=
  (List.range 8).map (fun y =>
    match sqLookup b.squares (coordStr y n) with
    | some pc => pc.abbreviation
    | none => ' ')

/-- The rank rows of Board.export in emission order: rank numbers 8
down to 1 (`axis_x[::-1]`). -/
def exportRows (b : Board) : List (List Char) :=
  (List.range 8).map (fun x => rowChars b (8 - x))

/-- Rows interleaved with '/' separators: the value of the emission loop
of Board.export after its trailing '/' is stripped (see
`exportPlacementRaw_eq_joinRows`). -/
def joinRows : List (List Char) → List Char
  | [] => []
  | [r] => r
  | r :: rest => r ++ '/' :: joinRows rest

/-- The placement string of Board.export before replace_spaces: each row
followed by '/', with the trailing '/' stripped (`result[:-1]`). -/
def exportPlacementRaw (b : Board) : List Char :=
  ((exportRows b).flatMap (fun r => r ++ ['/'])).dropLast

/-- Board.export: run-length encode the placement and append the five
metadata fields joined by single spaces; `player_turn[0]` is the first
character of the turn string. -/
def «export» (b : Board) : String :=
  String.mk
    (rleEncode (exportPlacementRaw b) ++
      ' ' :: (b.player_turn.data.headD '?') ::
      ' ' :: (b.castling.data ++
      ' ' :: (b.en_passant.data ++
      ' ' :: (natChars b.halfmove_clock ++
      ' ' :: natChars b.fullmove_number))))

/-- The coordinate Board.load assigns for row index x and column index y:
the source computes letter_notation((7-x, y)), whose bounds check fails
(silently producing the key None, see `placeRow`) outside the board. -/
def coordOfLoad (x y : Nat) : Option String :=
  if x ≤ 7 ∧ y ≤ 7 then some (coordStr y (8 - x)) else none

/-- The inner placement loop of Board.load over one expanded row: spaces
are skipped, letters become pieces at the computed coordinate. An
unrecognized piece letter raises in the source and an out-of-bounds
position makes the source silently file the piece under the key None;
both are modelled as a failing load (`none`), and neither is reachable
from canonical export output. -/
def placeRow : Squares → Nat → Nat → List Char → Option Squares
  | sq, _, _, [] => some sq
  | sq, x, y, ch :: rest =>
    if ch = ' ' then placeRow sq x (y + 1) rest
    else
      match pieceOfLetter ch, coordOfLoad x y with
      | some pc, some c => placeRow (sqSet sq c pc) x (y + 1) rest
      | _, _ => none

/-- The outer placement loop of Board.load over the '/'-split rows. -/
def placeRows : Squares → Nat → List (List Char) → Option Squares
  | sq, _, [] => some sq
  | sq, x, row :: rest =>
    match placeRow sq x 0 row with
    | some sq2 => placeRows sq2 (x + 1) rest
    | none => none

/-- Board.load on a fresh instance (the `Board(fen)` construction path):
split on single spaces, expand the digits of field 0, split it on '/',
place the pieces, then assign the five metadata fields ('w' selects
white, anything else black; the clock fields go through `int`). A
missing field (IndexError) or failing component yields `none` (the
source raises); the in_check / in_mate flags keep their class defaults. -/
def load (s : String) : Option Board :=
  let fields := splitChar ' ' s.data
  match fields.get? 0, fields.get? 1, fields.get? 2, fields.get? 3, fields.get? 4, fields.get? 5 with
  | some f0, some f1, some f2, some f3, some f4, some f5 =>
    match placeRows [] 0 (splitChar '/' (expand f0)) with
    | none => none
    | some sqs =>
      match parseNatChars f4, parseNatChars f5 with
      | some hm, some fm =>
        some { squares := sqs
               player_turn := if f1 = ['w'] then "white" else "black"
               castling := String.mk f2
               en_passant := String.mk f3
               halfmove_clock := hm
               fullmove_number := fm
               in_check := ("", false)
               in_mate := ("", false) }
      | _, _ => none
  | _, _, _, _, _, _ => none

/-- FEN_STARTING of board.py. -/
def FEN_STARTING : String := "rnbqkbnr/pppppppp/8/8/8/8/PPPPPPPP/RNBQKBNR w KQkq - 0 1"

/-- A placeholder board (never observable: `load FEN_STARTING` succeeds). -/
def dummyBoard : Board :=
  { squares := [], player_turn := "white", castling := "-", en_passant := "-"
    halfmove_clock := 0, fullmove_number := 1, in_check := ("", false), in_mate := ("", false) }

/-- The `Board()` starting position, as `__init__` builds it from
FEN_STARTING. -/
def initialBoard : Board := (load FEN_STARTING).getD dummyBoard

/-- The structural invariant of boards the program constructs: every
occupied key is a canonical coordinate, the turn string is one of the
two colors, and castling / en-passant are non-empty space-free strings
(the program only ever carries "KQkq" and "-"). -/
def WF (b : Board) : Prop :=
  (∀ e ∈ b.squares, validSq e.1 = true) ∧
  (b.player_turn = "white" ∨ b.player_turn = "black") ∧
  b.castling.data ≠ [] ∧ ' ' ∉ b.castling.data ∧
  b.en_passant.data ≠ [] ∧ ' ' ∉ b.en_passant.data

/-- The boards reachable from the starting position by successful
Board.move calls (under a given piece catalog). -/
inductive Reachable (cat : Catalog) : Board → Prop where
  | init : Reachable cat initialBoard
  | step (b : Board) (hist hist2 : List String) (p1 p2 : String) (b2 : Board) :
      Reachable cat b → moveResult cat hist b p1 p2 = (none, hist2, b2) → Reachable cat b2

/-- Decoding the encoding of a board reproduces its occupant mapping on
every board coordinate and its six serialized fields. -/
def RoundTrips (b : Board) : Prop :=
  ∃ b2, load («export» b) = some b2 ∧
    (∀ y n, y < 8 → 1 ≤ n → n ≤ 8 →
      sqLookup b2.squares (coordStr y n) = sqLookup b.squares (coordStr y n)) ∧
    b2.player_turn = b.player_turn ∧ b2.castling = b.castling ∧
    b2.en_passant = b.en_passant ∧ b2.halfmove_clock = b.halfmove_clock ∧
    b2.fullmove_number = b.fullmove_number

/-- Every key of the board dict is a canonical coordinate (true of every
board the program constructs: load only places canonical coordinates and
move only writes catalog destinations). -/
def KeysOk (b : Board) : Prop := ∀ e ∈ b.squares, validSq e.1 = true

/-! Concrete pieces, boards and catalogs used to evaluate the code on
specific inputs. -/

def wK : Piece := ⟨Kind.king, Color.white⟩

def wR : Piece := ⟨Kind.rook, Color.white⟩

def bK : Piece := ⟨Kind.king, Color.black⟩

def bR : Piece := ⟨Kind.rook, Color.black⟩

def bPawn : Piece := ⟨Kind.pawn, Color.black⟩

/-- A catalog with no moves at all (trivially satisfies the spec's
in-bounds contract). -/
def catEmpty : Catalog := fun _ _ _ => []

/-- White king a1, black king h8, black pawn b7; black to move, halfmove
clock 3. -/
def bPawnBoard : Board :=
  { squares := [("A1", wK), ("H8", bK), ("B7", bPawn)], player_turn := "black"
    castling := "KQkq", en_passant := "-", halfmove_clock := 3, fullmove_number := 10
    in_check := ("", false), in_mate := ("", false) }

/-- A catalog giving the b7 black pawn its single push b7-b6. -/
def catPawn : Catalog := fun pc c _ => if pc = bPawn ∧ c = "B7" then ["B6"] else []

/-- White king a1 attacked along the a-file by the black rook a8; white
flagged in check. -/
def bCheckBoard : Board :=
  { squares := [("A1", wK), ("A8", bR), ("H8", bK)], player_turn := "white"
    castling := "KQkq", en_passant := "-", halfmove_clock := 0, fullmove_number := 1
    in_check := ("white", true), in_mate := ("", false) }

/-- White rook a1 and king h1 against the black king h8; white to move. -/
def bRookBoard : Board :=
  { squares := [("A1", wR), ("H1", wK), ("H8", bK)], player_turn := "white"
    castling := "KQkq", en_passant := "-", halfmove_clock := 0, fullmove_number := 1
    in_check := ("", false), in_mate := ("", false) }

/-- A catalog giving the a1 white rook its single move a1-a2. -/
def catRook : Catalog := fun pc c _ => if pc = wR ∧ c = "A1" then ["A2"] else []

/-- White king a1 facing a black rook b8; the king's only pseudo-legal
move walks into the rook's file. -/
def bPinBoard : Board :=
  { squares := [("A1", wK), ("B8", bR)], player_turn := "white"
    castling := "KQkq", en_passant := "-", halfmove_clock := 0, fullmove_number := 1
    in_check := ("", false), in_mate := ("", false) }

/-- A catalog under which the white king's only candidate b1 is attacked
by the black rook. -/
def catPin : Catalog := fun pc c _ =>
  if pc = wK ∧ c = "A1" then ["B1"]
  else if pc = bR ∧ c = "B8" then ["B1"] else []

/-- A board with no white king at all: a single black rook on b8. -/
def bKingless : Board :=
  { squares := [("B8", bR)], player_turn := "white"
    castling := "KQkq", en_passant := "-", halfmove_clock := 0, fullmove_number := 1
    in_check := ("", false), in_mate := ("", false) }

/-- A catalog sending the b8 black rook to the empty square b1. -/
def catKingless : Catalog := fun pc c _ => if pc = bR ∧ c = "B8" then ["B1"] else []

instance {ε α : Type} [DecidableEq ε] [DecidableEq α] : DecidableEq (Except ε α) := fun a b =>
  match a, b with
  | Except.ok x, Except.ok y =>
    if h : x = y then isTrue (by rw [h]) else isFalse (fun hh => h (Except.ok.inj hh))
  | Except.error x, Except.error y =>
    if h : x = y then isTrue (by rw [h]) else isFalse (fun hh => h (Except.error.inj hh))
  | Except.ok _, Except.error _ => isFalse (fun hh => Except.noConfusion hh)
  | Except.error _, Except.ok _ => isFalse (fun hh => Except.noConfusion hh)

/-- The square names covered by the case-insensitivity claim: a letter
whose uppercase form is A-H (so a-h or A-H) followed by a digit 1-8. -/
def claimSquareName (s : String) : Bool :=
  match s.data with
  | [a, d] => validFile a.toUpper && validRank d
  | _ => false

/-! Basic character and coordinate lemmas. -/

theorem char_toNat_ofNat {n : Nat} (h : n < 55296) : (Char.ofNat n).toNat = n := by
  have hv : n.isValidChar := Or.inl h
  simp [Char.ofNat, hv, Char.ofNatAux, Char.toNat, UInt32.toNat]

theorem toUpper_idem (c : Char) : c.toUpper.toUpper = c.toUpper := by
  unfold Char.toUpper
  by_cases h : c.toNat ≥ 97 ∧ c.toNat ≤ 122
  · rw [if_pos h]
    have h32 : (Char.ofNat (c.toNat - 32)).toNat = c.toNat - 32 := char_toNat_ofNat (by omega)
    rw [if_neg (by omega)]
  · rw [if_neg h, if_neg h]

theorem pyUpper_idem (s : String) : pyUpper (pyUpper s) = pyUpper s := by
  simp [pyUpper, List.map_map, Function.comp_def, toUpper_idem]

theorem validSq_shape {s : String} (h : validSq s = true) :
    ∃ a d, s = String.mk [a, d] ∧
      (a = 'A' ∨ a = 'B' ∨ a = 'C' ∨ a = 'D' ∨ a = 'E' ∨ a = 'F' ∨ a = 'G' ∨ a = 'H') ∧
      (d = '1' ∨ d = '2' ∨ d = '3' ∨ d = '4' ∨ d = '5' ∨ d = '6' ∨ d = '7' ∨ d = '8') := by
  obtain ⟨data⟩ := s
  match data with
  | [] => exact absurd h (by simp [validSq])
  | [a] => exact absurd h (by simp [validSq])
  | a :: d :: x :: rest => exact absurd h (by simp [validSq])
  | [a, d] =>
    simp only [validSq, validFile, validRank, Bool.and_eq_true, Bool.or_eq_true,
      beq_iff_eq] at h
    exact ⟨a, d, rfl, by tauto, by tauto⟩

theorem validSq_pyUpper_fix {s : String} (h : validSq s = true) : pyUpper s = s := by
  obtain ⟨a, d, rfl, ha, hd⟩ := validSq_shape h
  rcases ha with rfl | rfl | rfl | rfl | rfl | rfl | rfl | rfl <;>
    rcases hd with rfl | rfl | rfl | rfl | rfl | rfl | rfl | rfl <;> rfl

theorem validSq_isCoordFormat {s : String} (h : validSq s = true) : isCoordFormat s = true := by
  obtain ⟨a, d, rfl, ha, hd⟩ := validSq_shape h
  rcases ha with rfl | rfl | rfl | rfl | rfl | rfl | rfl | rfl <;>
    rcases hd with rfl | rfl | rfl | rfl | rfl | rfl | rfl | rfl <;> rfl

theorem getitemStr_of_validSq (b : Board) {s : String} (h : validSq s = true) :
    getitemStr b s = Except.ok (sqLookup b.squares s) := by
  unfold getitemStr
  rw [validSq_pyUpper_fix h, if_pos (validSq_isCoordFormat h)]

theorem parseColor_colorStr (c : Color) : parseColor (colorStr c) = some c := by
  cases c <;> rfl

/-! Lemmas about the square dict. -/

theorem sqErase_subset {s : Squares} {c : String} : ∀ e ∈ sqErase s c, e ∈ s := by
  induction s with
  | nil => intro e he; exact absurd he (by simp [sqErase])
  | cons hd tl ih =>
    intro e he
    unfold sqErase at he
    by_cases h : hd.1 = c
    · rw [if_pos h] at he
      exact List.mem_cons_of_mem hd (ih e he)
    · rw [if_neg h] at he
      rcases List.mem_cons.mp he with h1 | h1
      · exact h1 ▸ List.mem_cons_self hd tl
      · exact List.mem_cons_of_mem hd (ih e h1)

theorem sqSet_subset {s : Squares} {c : String} {p : Piece} :
    ∀ e ∈ sqSet s c p, e ∈ s ∨ e.1 = c := by
  induction s with
  | nil =>
    intro e he
    unfold sqSet at he
    rcases List.mem_singleton.mp he with rfl
    exact Or.inr rfl
  | cons hd tl ih =>
    intro e he
    unfold sqSet at he
    by_cases h : hd.1 = c
    · rw [if_pos h] at he
      rcases List.mem_cons.mp he with rfl | h1
      · exact Or.inr h
      · exact Or.inl (List.mem_cons_of_mem hd h1)
    · rw [if_neg h] at he
      rcases List.mem_cons.mp he with rfl | h1
      · exact Or.inl (List.mem_cons_self hd tl)
      · rcases ih e h1 with h2 | h2
        · exact Or.inl (List.mem_cons_of_mem hd h2)
        · exact Or.inr h2

theorem sqLookup_set (s : Squares) (c : String) (p : Piece) (x : String) :
    sqLookup (sqSet s c p) x = if c = x then some p else sqLookup s x := by
  induction s with
  | nil =>
    by_cases hcx : c = x <;> simp [sqSet, sqLookup, hcx]
  | cons hd tl ih =>
    obtain ⟨k, q⟩ := hd
    by_cases h : k = c <;> by_cases hx : k = x <;> simp_all [sqSet, sqLookup] <;>
      rw [if_neg (fun hh => h hh.symm)]

theorem sqLookup_erase (s : Squares) (c : String) (x : String) :
    sqLookup (sqErase s c) x = if c = x then none else sqLookup s x := by
  induction s with
  | nil => simp [sqErase, sqLookup]
  | cons hd tl ih =>
    obtain ⟨k, q⟩ := hd
    by_cases h : k = c <;> by_cases hx : k = x <;> simp_all [sqErase, sqLookup] <;>
      exact fun hh => h hh.symm

/-! Claim theorems on concrete inputs. -/

/-- C1: the claim says evaluate_board yields the Checkmate status when the
side flagged as in check has an empty legal-move set. On the code this
fails: `bCheckBoard` flags white in check, and (the worker-pool
`all_legal_side_moves` returning an empty dict on every board) the
empty-dict branch of `evaluate_board` resets the mate flag and returns
the empty status string, the Ongoing sentinel of the GUI, not the
checkmate message — whatever the piece catalog. -/
theorem evaluate_board_check_position_returns_empty_status (cat : Catalog) :
    evaluate_board cat bCheckBoard = Except.ok (some "", bCheckBoard) ∧
    (some "" : Option String) ≠ some ("white" ++ " is in checkmate!") := by
  exact ⟨rfl, by decide⟩

/-- C2: the claim says all_legal_side_moves maps each origin of the given
color with a non-empty legal set to that set. On the code this fails: the
`apply_async` worker-pool side effects never reach the parent dict, so the
function returns the empty dict even on `bRookBoard`, where the white rook
on a1 has the legal move a2 (the sequential reading of its own add_move
body returns exactly that mapping). -/
theorem all_legal_side_moves_returns_empty_dict :
    all_legal_side_moves catRook bRookBoard "white" = Except.ok [] ∧
    all_legal_side_moves_seq catRook bRookBoard "white" = Except.ok [("A1", [some "A2"])] := by
  exact ⟨rfl, rfl⟩

/-- C3 counterexample: the claim says all_legal_piece_moves contains
exactly the safe destination coordinates and nothing else. On `bPinBoard`
the white king's only pseudo-legal destination b1 is unsafe (the
simulation reports check), so the claimed collection would be empty; the
code instead returns the one-element list holding the None placeholder
that add_move produced for the filtered move. -/
theorem all_legal_piece_moves_contains_none_placeholder :
    all_legal_piece_moves catPin bPinBoard "A1" = Except.ok [none] ∧
    is_in_check_after_move catPin bPinBoard "A1" "B1" = Except.ok true ∧
    (Except.ok [none] : Except PyErr (List (Option String))) ≠ Except.ok [] := by
  refine ⟨rfl, rfl, by simp⟩

/-- C5 counterexample: the claim says a move from an unoccupied origin
fails with InvalidMove, resolved before the turn check. On the code
there is no occupant check at all: `c3` is empty on `bPawnBoard`, and the
call dies dereferencing `piece.color` on None at the turn-check line, an
AttributeError, not InvalidMove. -/
theorem move_empty_origin_attribute_error_example :
    moveResult catEmpty [] bPawnBoard "C3" "C4" = (some PyErr.attributeError, [], bPawnBoard) ∧
    PyErr.attributeError ≠ PyErr.invalidMove := by
  exact ⟨by decide, by decide⟩

/-- C6: the claim says every successful pawn move (of either color)
resets the halfmove clock to 0. On the code this fails for black pawns:
their abbreviation is the lowercase 'p', the `abbr == 'P'` test in
_finish_move misses it, and the successful non-capturing push b7-b6
leaves the clock incremented (3 to 4) instead of 0 — and logs the move
as "pb6" although the comment says pawns have no letter. -/
theorem black_pawn_move_does_not_reset_halfmove_clock :
    (moveResult catPawn [] bPawnBoard "B7" "B6").1 = none ∧
    (moveResult catPawn [] bPawnBoard "B7" "B6").2.2.halfmove_clock =
      bPawnBoard.halfmove_clock + 1 ∧
    (moveResult catPawn [] bPawnBoard "B7" "B6").2.1 = ["pb6"] := by
  refine ⟨by decide, by decide, by decide⟩

/-- C8: the claim says each Board owns its history independently, a fresh
Board having an empty history and moves on one instance leaving the
history of others unchanged. On the code `history` is one shared
class-level list: after the successful move on `bPawnBoard` the freshly
constructed starting board observes the same non-empty history. -/
theorem history_shared_across_instances :
    (moveResult catPawn [] bPawnBoard "B7" "B6").1 = none ∧
    observed_history (moveResult catPawn [] bPawnBoard "B7" "B6").2.1 initialBoard = ["pb6"] ∧
    (["pb6"] : List String) ≠ ([] : List String) := by
  refine ⟨by decide, by decide, by decide⟩

/-- C9 counterexample: the claim says querying the king of a color with
no king on the board fails with an internal-invariant error, and in
particular is_in_check does not return a normally computed boolean. On
`bKingless` (no white king) get_king_position silently returns None and
is_in_check returns the plain boolean true, because the black rook's
pseudo-legal destination b1 is an empty square whose occupant None
compares equal to the missing king. -/
theorem is_in_check_kingless_returns_bool :
    get_king_position bKingless "white" = none ∧
    is_in_check catKingless bKingless "white" = Except.ok true := by
  exact ⟨rfl, rfl⟩

/-! Catalog-contract and well-formedness lemmas. -/

theorem catEmpty_ok : CatalogOk catEmpty := by
  intro pc c sqs m hm
  exact absurd hm (by simp [catEmpty])

theorem catPawn_ok : CatalogOk catPawn := by
  intro pc c sqs m hm
  unfold catPawn at hm
  split at hm
  · rcases List.mem_singleton.mp hm with rfl; rfl
  · exact absurd hm (by simp)

theorem catPin_ok : CatalogOk catPin := by
  intro pc c sqs m hm
  unfold catPin at hm
  split at hm
  · rcases List.mem_singleton.mp hm with rfl; rfl
  · split at hm
    · rcases List.mem_singleton.mp hm with rfl; rfl
    · exact absurd hm (by simp)

theorem catKingless_ok : CatalogOk catKingless := by
  intro pc c sqs m hm
  unfold catKingless at hm
  split at hm
  · rcases List.mem_singleton.mp hm with rfl; rfl
  · exact absurd hm (by simp)

theorem all_possible_movesC_valid {cat : Catalog} (hcat : CatalogOk cat) (b : Board)
    (color : Color) : ∀ m ∈ all_possible_movesC cat b color, validSq m = true := by
  intro m hm
  unfold all_possible_movesC at hm
  rw [List.mem_flatMap] at hm
  obtain ⟨e, _, hm⟩ := hm
  rcases h1 : sqLookup b.squares e.1 with _ | pc
  · rw [h1] at hm; exact absurd hm (by simp)
  · rw [h1] at hm
    dsimp only at hm
    by_cases h2 : pc.color = color
    · rw [if_pos h2] at hm
      exact hcat _ _ _ _ hm
    · rw [if_neg h2] at hm; exact absurd hm (by simp)

theorem mapGetitem_ok (b : Board) {ms : List String} (h : ∀ m ∈ ms, validSq m = true) :
    mapGetitem b ms = Except.ok (ms.map (fun m => sqLookup b.squares m)) := by
  induction ms with
  | nil => rfl
  | cons m rest ih =>
    rw [List.map_cons]
    unfold mapGetitem
    rw [getitemStr_of_validSq b (h m (List.mem_cons_self m rest)),
      ih (fun x hx => h x (List.mem_cons_of_mem m hx))]

theorem get_king_eq (b : Board) (hk : KeysOk b) (c : Color) :
    get_king b (colorStr c) =
      Except.ok ((get_king_position b (colorStr c)).bind
        (fun pos => sqLookup b.squares pos)) := by
  unfold get_king
  rw [parseColor_colorStr]
  dsimp only
  rcases hf : get_king_position b (colorStr c) with _ | pos
  · rfl
  · dsimp only
    unfold get_king_position at hf
    rw [Option.map_eq_some'] at hf
    obtain ⟨e, hfind, hpos⟩ := hf
    have he : e ∈ b.squares := List.mem_of_find?_eq_some hfind
    have hv : validSq pos = true := hpos ▸ hk e he
    rw [getitemStr_of_validSq b hv]
    rfl

theorem is_in_check_eq (cat : Catalog) (hcat : CatalogOk cat) (b : Board) (hk : KeysOk b)
    (c : Color) :
    is_in_check cat b (colorStr c) =
      Except.ok (decide
        ((get_king_position b (colorStr c)).bind (fun pos => sqLookup b.squares pos) ∈
          (all_possible_movesC cat b (get_enemy c)).map (fun m => sqLookup b.squares m))) := by
  unfold is_in_check
  rw [parseColor_colorStr]
  dsimp only
  rw [get_king_eq b hk c]
  dsimp only
  rw [mapGetitem_ok b (all_possible_movesC_valid hcat b (get_enemy c))]

theorem finish_move_squares (hist : List String) (b : Board) (piece : Piece)
    (dest : Option Piece) (p2 : String) :
    ((finish_move hist b piece dest p2).2).squares = b.squares := rfl

theorem do_move_keysOk {b : Board} (hk : KeysOk b) {p1 p2 : String}
    (hv : validSq p2 = true) : KeysOk (do_move b p1 p2) := by
  unfold do_move
  rcases h1 : sqLookup b.squares p1 with _ | pc
  · exact hk
  · intro e he
    rcases sqSet_subset e he with h2 | h2
    · exact hk e (sqErase_subset e h2)
    · rw [h2]; exact hv

theorem is_in_check_after_move_ok (cat : Catalog) (hcat : CatalogOk cat) (b : Board)
    (hk : KeysOk b) {origin : String} {pc : Piece}
    (ho : getitemStr b origin = Except.ok (some pc)) {m : String}
    (hm : validSq m = true) :
    ∃ chk, is_in_check_after_move cat b origin m = Except.ok chk := by
  unfold is_in_check_after_move
  rw [ho]
  dsimp only
  exact ⟨_, is_in_check_eq cat hcat (do_move b origin m) (do_move_keysOk hk hm) pc.color⟩

theorem mem_addMoves {cat : Catalog} {b : Board} {origin : String} :
    ∀ {ms : List String} {l : List (Option String)} {m : String},
      addMoves cat b origin ms = Except.ok l → some m ∈ l → m ∈ ms := by
  intro ms
  induction ms with
  | nil =>
    intro l m h hm
    unfold addMoves at h
    injection h with h
    subst h
    exact absurd hm (by simp)
  | cons m0 rest ih =>
    intro l m h hm
    unfold addMoves at h
    rcases h1 : is_in_check_after_move cat b origin m0 with e1 | chk
    · rw [h1] at h; exact Except.noConfusion h
    · rw [h1] at h
      rcases h2 : addMoves cat b origin rest with e2 | l2
      · rw [h2] at h; exact Except.noConfusion h
      · rw [h2] at h
        injection h with h
        subst h
        rcases List.mem_cons.mp hm with h3 | h3
        · by_cases hc : chk = false
          · rw [if_pos hc] at h3
            rw [Option.some.inj h3]
            exact List.mem_cons_self m0 rest
          · rw [if_neg hc] at h3
            exact Option.noConfusion h3
        · exact List.mem_cons_of_mem m0 (ih h2 h3)

theorem addMoves_eq (cat : Catalog) (hcat : CatalogOk cat) (b : Board) (hk : KeysOk b)
    {origin : String} {pc : Piece} (ho : getitemStr b origin = Except.ok (some pc))
    {ms : List String} (hms : ∀ m ∈ ms, validSq m = true) :
    addMoves cat b origin ms = Except.ok (ms.map (fun m =>
      if is_in_check_after_move cat b origin m = Except.ok false then some m else none)) := by
  induction ms with
  | nil => rfl
  | cons m rest ih =>
    obtain ⟨chk, hchk⟩ :=
      is_in_check_after_move_ok cat hcat b hk ho (hms m (List.mem_cons_self m rest))
    unfold addMoves
    rw [hchk, ih (fun x hx => hms x (List.mem_cons_of_mem m hx)), List.map_cons]
    dsimp only
    congr 2
    by_cases hc : chk = false
    · rw [hc] at hchk
      rw [if_pos hc, if_pos hchk]
    · have hne : ¬ is_in_check_after_move cat b origin m = Except.ok false := by
        rw [hchk]
        intro hh
        exact hc (Except.ok.inj hh)
      rw [if_neg hc, if_neg hne]

theorem filterMap_ite {α : Type} (p : α → Prop) [DecidablePred p] (l : List α) :
    (l.map (fun m => if p m then some m else none)).filterMap id =
      l.filter (fun m => decide (p m)) := by
  induction l with
  | nil => rfl
  | cons m rest ih => by_cases h : p m <;> simp [h, ih]

theorem none_mem_ite_map {α : Type} (p : α → Prop) [DecidablePred p] (l : List α) :
    none ∈ l.map (fun m => if p m then some m else none) ↔ ∃ m ∈ l, ¬ p m := by
  induction l with
  | nil => simp
  | cons m rest ih =>
    by_cases h : p m <;> simp [h, ih]

/-! The remaining general claim theorems. -/

/-- C3 amended: all_legal_piece_moves on an occupied origin returns, in
the catalog's order, one entry per pseudo-legal destination: the
destination itself when the simulation leaves the mover's king
unattacked, a None placeholder otherwise. Hence its non-None entries are
exactly the safe destinations, and a None placeholder is present exactly
when some pseudo-legal destination is unsafe. -/
theorem all_legal_piece_moves_filtered (cat : Catalog) (hcat : CatalogOk cat) (b : Board)
    (hk : KeysOk b) (origin : String) (pc : Piece)
    (ho : getitemStr b origin = Except.ok (some pc)) :
    ∃ l, all_legal_piece_moves cat b origin = Except.ok l ∧
      l.filterMap id = (cat pc origin b.squares).filter
        (fun m => decide (is_in_check_after_move cat b origin m = Except.ok false)) ∧
      (none ∈ l ↔ ∃ m ∈ cat pc origin b.squares,
        ¬ is_in_check_after_move cat b origin m = Except.ok false) := by
  have hms : ∀ m ∈ cat pc origin b.squares, validSq m = true := fun m hm => hcat _ _ _ _ hm
  refine ⟨(cat pc origin b.squares).map (fun m =>
      if is_in_check_after_move cat b origin m = Except.ok false then some m else none),
    ?_, ?_, ?_⟩
  · unfold all_legal_piece_moves
    rw [ho]
    dsimp only
    rw [addMoves_eq cat hcat b hk ho hms]
  · exact filterMap_ite _ _
  · exact none_mem_ite_map _ _

/-- C3 amended, witness: on the pinned-king position the returned list is
the single None placeholder, its non-None part empty, matching the
filtered characterization. -/
theorem all_legal_piece_moves_filtered_witness :
    ∃ l, all_legal_piece_moves catPin bPinBoard "A1" = Except.ok l ∧
      l.filterMap id = (catPin wK "A1" bPinBoard.squares).filter
        (fun m => decide (is_in_check_after_move catPin bPinBoard "A1" m = Except.ok false)) ∧
      (none ∈ l ↔ ∃ m ∈ catPin wK "A1" bPinBoard.squares,
        ¬ is_in_check_after_move catPin bPinBoard "A1" m = Except.ok false) :=
  all_legal_piece_moves_filtered catPin catPin_ok bPinBoard (by unfold KeysOk; decide) "A1" wK
    (by decide)

/-- C4: every Board.move call that raises an error (NotYourTurn,
InvalidMove, the KeyError of a malformed square name, or the
AttributeError of an empty origin) leaves the shared history and the
whole instance state exactly as they were: every check precedes the
mutation, and under the catalog's in-bounds contract the final
is_in_check recomputation cannot raise after the mutation. -/
theorem move_failure_leaves_state_unchanged (cat : Catalog) (hcat : CatalogOk cat)
    (hist : List String) (b : Board) (hk : KeysOk b) (p1 p2 : String) (e : PyErr)
    (hist2 : List String) (b2 : Board)
    (h : moveResult cat hist b p1 p2 = (some e, hist2, b2)) :
    hist2 = hist ∧ b2 = b := by
  unfold moveResult moveCore at h
  rcases h1 : getitemStr b (pyUpper p1) with e1 | piece?
  · rw [h1] at h
    dsimp only at h
    simp only [Prod.mk.injEq] at h
    exact ⟨h.2.1.symm, h.2.2.symm⟩
  rw [h1] at h
  dsimp only at h
  rcases h2 : getitemStr b (pyUpper p2) with e2 | dest
  · rw [h2] at h
    dsimp only at h
    simp only [Prod.mk.injEq] at h
    exact ⟨h.2.1.symm, h.2.2.symm⟩
  rw [h2] at h
  dsimp only at h
  rcases piece? with _ | piece
  · dsimp only at h
    simp only [Prod.mk.injEq] at h
    exact ⟨h.2.1.symm, h.2.2.symm⟩
  dsimp only at h
  by_cases ht : b.player_turn ≠ colorStr piece.color
  · rw [if_pos ht] at h
    simp only [Prod.mk.injEq] at h
    exact ⟨h.2.1.symm, h.2.2.symm⟩
  rw [if_neg ht] at h
  rcases h4 : all_legal_piece_moves cat b (pyUpper p1) with e4 | legal
  · rw [h4] at h
    dsimp only at h
    simp only [Prod.mk.injEq] at h
    exact ⟨h.2.1.symm, h.2.2.symm⟩
  rw [h4] at h
  dsimp only at h
  by_cases hmem : some (pyUpper p2) ∈ legal
  · rw [if_pos hmem] at h
    have h4a : addMoves cat b (pyUpper p1) (cat piece (pyUpper p1) b.squares) =
        Except.ok legal := by
      unfold all_legal_piece_moves at h4
      rw [h1] at h4
      exact h4
    have hveq : validSq (pyUpper p2) = true :=
      hcat _ _ _ _ (mem_addMoves h4a hmem)
    have hkk : KeysOk ((finish_move hist (do_move b (pyUpper p1) (pyUpper p2)) piece dest
        (pyUpper p2)).2) := by
      unfold KeysOk
      rw [finish_move_squares]
      exact do_move_keysOk hk hveq
    rcases h5 : is_in_check cat
        ((finish_move hist (do_move b (pyUpper p1) (pyUpper p2)) piece dest (pyUpper p2)).2)
        (colorStr (get_enemy piece.color)) with e5 | chk
    · rw [is_in_check_eq cat hcat _ hkk (get_enemy piece.color)] at h5
      exact Except.noConfusion h5
    · rw [h5] at h
      dsimp only at h
      simp only [Prod.mk.injEq] at h
      exact absurd h.1 (by simp)
  · rw [if_neg hmem] at h
    simp only [Prod.mk.injEq] at h
    exact ⟨h.2.1.symm, h.2.2.symm⟩

/-- C4 witness: the rejected king move h8-h7 (outside the empty legal
list of `catEmpty`) raises InvalidMove and leaves both the history and
the board exactly as they were. -/
theorem move_failure_leaves_state_unchanged_witness :
    ([] : List String) = ([] : List String) ∧ bPawnBoard = bPawnBoard :=
  move_failure_leaves_state_unchanged catEmpty catEmpty_ok [] bPawnBoard
    (by unfold KeysOk; decide) "H8" "H7" PyErr.invalidMove [] bPawnBoard (by decide)

/-- C5 amended: Board.move performs no occupant check at the origin;
with well-formed square names and an empty origin it fails with the
AttributeError raised by dereferencing `piece.color` at the
active-color comparison (so neither InvalidMove nor NotYourTurn is
raised), and the state is unchanged. -/
theorem move_empty_origin_raises_attribute_error (cat : Catalog) (hist : List String)
    (b : Board) (p1 p2 : String) (h1 : isCoordFormat (pyUpper p1) = true)
    (h2 : isCoordFormat (pyUpper p2) = true)
    (h : sqLookup b.squares (pyUpper p1) = none) :
    moveResult cat hist b p1 p2 = (some PyErr.attributeError, hist, b) := by
  unfold moveResult moveCore getitemStr
  dsimp only
  simp only [pyUpper_idem]
  rw [if_pos h1, if_pos h2, h]

/-- C5 amended, witness: the empty origin c3 (in lowercase, exercising
the uppercasing) yields the AttributeError with untouched state. -/
theorem move_empty_origin_raises_attribute_error_witness :
    moveResult catEmpty [] bPawnBoard "c3" "c4" = (some PyErr.attributeError, [], bPawnBoard) :=
  move_empty_origin_raises_attribute_error catEmpty [] bPawnBoard "c3" "c4"
    (by decide) (by decide) (by decide)

/-- C9 amended: on a board with no white king nothing fails:
get_king_position silently returns None, get_king returns None, and
is_in_check returns the normally computed boolean that is true exactly
when the occupant None of some enemy pseudo-legal destination (an empty
square) equals the missing king. -/
theorem kingless_query_returns_plain_values (cat : Catalog) (hcat : CatalogOk cat)
    (b : Board) (hk : KeysOk b)
    (hno : ∀ e ∈ b.squares, ¬ (e.2.kind = Kind.king ∧ e.2.color = Color.white)) :
    get_king_position b "white" = none ∧
    get_king b "white" = Except.ok none ∧
    is_in_check cat b "white" =
      Except.ok (decide (none ∈ (all_possible_movesC cat b Color.black).map
        (fun m => sqLookup b.squares m))) := by
  have hgkp : get_king_position b "white" = none := by
    unfold get_king_position
    rw [Option.map_eq_none']
    rw [List.find?_eq_none]
    intro e he
    simp only [decide_eq_true_eq]
    intro hcon
    refine hno e he ⟨hcon.1, ?_⟩
    cases hc : e.2.color
    · rfl
    · rw [hc] at hcon
      exact absurd hcon.2 (by decide)
  have hgk : get_king b "white" = Except.ok none := by
    have h2 := get_king_eq b hk Color.white
    rw [show colorStr Color.white = "white" from rfl, hgkp] at h2
    exact h2
  refine ⟨hgkp, hgk, ?_⟩
  have h3 := is_in_check_eq cat hcat b hk Color.white
  rw [show colorStr Color.white = "white" from rfl, hgkp] at h3
  exact h3

/-- C9 amended, witness: on the kingless board the query chain returns
None / None / the boolean true. -/
theorem kingless_query_returns_plain_values_witness :
    get_king_position bKingless "white" = none ∧
    get_king bKingless "white" = Except.ok none ∧
    is_in_check catKingless bKingless "white" =
      Except.ok (decide (none ∈ (all_possible_movesC catKingless bKingless Color.black).map
        (fun m => sqLookup bKingless.squares m))) :=
  kingless_query_returns_plain_values catKingless catKingless_ok bKingless
    (by unfold KeysOk; decide) (by decide)

/-- C10: square names at the public interface are case handled by an
initial uppercasing, so an occupant lookup with a letter a-h or A-H and
digit 1-8 agrees with the lookup of the uppercased name, and Board.move
behaves identically on lowercase, mixed, or uppercase arguments. -/
theorem case_insensitive_interface (cat : Catalog) (hist : List String) (b : Board)
    (s p1 p2 : String) (hs : claimSquareName s = true)
    (h1 : claimSquareName p1 = true) (h2 : claimSquareName p2 = true) :
    getitemStr b s = getitemStr b (pyUpper s) ∧
    moveResult cat hist b p1 p2 = moveResult cat hist b (pyUpper p1) (pyUpper p2) := by
  constructor
  · unfold getitemStr
    rw [pyUpper_idem]
  · unfold moveResult
    rw [pyUpper_idem, pyUpper_idem]

/-- C10 witness: lookup of "a1" equals lookup of "A1", and the move
called as "b7" "b6" equals the move called as "B7" "B6". -/
theorem case_insensitive_interface_witness :
    getitemStr bPawnBoard "a1" = getitemStr bPawnBoard (pyUpper "a1") ∧
    moveResult catPawn [] bPawnBoard "b7" "b6" =
      moveResult catPawn [] bPawnBoard (pyUpper "b7") (pyUpper "b6") :=
  case_insensitive_interface catPawn [] bPawnBoard "a1" "b7" "b6"
    (by decide) (by decide) (by decide)

/-! The State Codec round trip, part 1: decimal numerals. -/

theorem digitsAux_eq : ∀ (fuel n : Nat), n ≤ fuel → digitsAux fuel n = Nat.digits 10 n := by
  intro fuel
  induction fuel with
  | zero =>
    intro n hn
    interval_cases n
    rw [Nat.digits_zero]
    rfl
  | succ fuel ih =>
    intro n hn
    match n with
    | 0 =>
      rw [Nat.digits_zero]
      rfl
    | m + 1 =>
      have hd : Nat.digits 10 (m + 1) = (m + 1) % 10 :: Nat.digits 10 ((m + 1) / 10) :=
        Nat.digits_def' (by omega) (Nat.succ_pos m)
      have hdiv : (m + 1) / 10 ≤ fuel := by
        have := Nat.div_lt_self (Nat.succ_pos m) (show 1 < 10 by omega)
        omega
      unfold digitsAux
      rw [ih _ hdiv, hd]

theorem charVal_digitChar {d : Nat} (h : d < 10) : charVal (digitChar d) = d := by
  interval_cases d <;> rfl

theorem isDigit_digitChar {d : Nat} (h : d < 10) : (digitChar d).isDigit = true := by
  interval_cases d <;> rfl

theorem digitChar_ne_space {d : Nat} (h : d < 10) : digitChar d ≠ ' ' := by
  interval_cases d <;> decide

theorem natChars_mem {n : Nat} : ∀ c ∈ natChars n, ∃ d, d < 10 ∧ c = digitChar d := by
  intro c hc
  unfold natChars at hc
  by_cases h : n = 0
  · rw [if_pos h] at hc
    rcases List.mem_singleton.mp hc with rfl
    exact ⟨0, by omega, rfl⟩
  · rw [if_neg h] at hc
    rw [List.mem_map] at hc
    obtain ⟨d, hd, rfl⟩ := hc
    rw [List.mem_reverse] at hd
    rw [digitsAux_eq n n (Nat.le_refl n)] at hd
    exact ⟨d, Nat.digits_lt_base (by omega) hd, rfl⟩

theorem natChars_digits {n : Nat} : ∀ c ∈ natChars n, c.isDigit = true := by
  intro c hc
  obtain ⟨d, hd, rfl⟩ := natChars_mem c hc
  exact isDigit_digitChar hd

theorem natChars_no_space {n : Nat} : ' ' ∉ natChars n := by
  intro hc
  obtain ⟨d, hd, hs⟩ := natChars_mem ' ' hc
  exact digitChar_ne_space hd hs.symm

theorem natChars_ne_nil {n : Nat} : natChars n ≠ [] := by
  unfold natChars
  by_cases h : n = 0
  · rw [if_pos h]; simp
  · rw [if_neg h]
    simp only [ne_eq, List.map_eq_nil_iff, List.reverse_eq_nil_iff]
    rw [digitsAux_eq n n (Nat.le_refl n)]
    exact Nat.digits_ne_nil_iff_ne_zero.mpr h

theorem foldl_decimal (l : List Nat) :
    ∀ a : Nat, List.foldl (fun acc d => acc * 10 + d) a l.reverse =
      a * 10 ^ l.length + Nat.ofDigits 10 l := by
  induction l with
  | nil => intro a; simp [Nat.ofDigits]
  | cons d ds ih =>
    intro a
    rw [List.reverse_cons, List.foldl_append, ih a]
    simp only [List.foldl_cons, List.foldl_nil, Nat.ofDigits_cons, List.length_cons]
    ring

theorem foldl_charVal (l : List Nat) (hl : ∀ d ∈ l, d < 10) (a : Nat) :
    List.foldl (fun acc c => acc * 10 + charVal c) a (l.map digitChar) =
      List.foldl (fun acc d => acc * 10 + d) a l := by
  induction l generalizing a with
  | nil => rfl
  | cons d ds ih =>
    simp only [List.map_cons, List.foldl_cons]
    rw [charVal_digitChar (hl d (List.mem_cons_self d ds))]
    exact ih (fun x hx => hl x (List.mem_cons_of_mem d hx)) _

theorem parseNat_natChars (n : Nat) : parseNatChars (natChars n) = some n := by
  unfold parseNatChars
  rw [if_pos ⟨natChars_ne_nil, List.all_eq_true.mpr (fun c hc => natChars_digits c hc)⟩]
  congr 1
  by_cases h : n = 0
  · subst h; rfl
  · unfold natChars
    rw [if_neg h, digitsAux_eq n n (Nat.le_refl n),
      foldl_charVal _ (fun d hd => Nat.digits_lt_base (by omega) (List.mem_reverse.mp hd))]
    rw [foldl_decimal]
    simp [Nat.ofDigits_digits]

theorem natChars_single {n : Nat} (h1 : 1 ≤ n) (h9 : n ≤ 9) : natChars n = [digitChar n] := by
  unfold natChars
  rw [if_neg (by omega), digitsAux_eq n n (Nat.le_refl n)]
  have hdig : Nat.digits 10 n = [n] := by
    rw [Nat.digits_def' (show (1 : Nat) < 10 by omega) (by omega),
      Nat.mod_eq_of_lt (by omega), Nat.div_eq_of_lt (by omega), Nat.digits_zero]
  rw [hdig]
  rfl

/-! The State Codec round trip, part 2: blank expansion, run-length
encoding, splitting. -/

theorem expand_append (xs ys : List Char) : expand (xs ++ ys) = expand xs ++ expand ys := by
  unfold expand
  rw [List.flatMap_append]

theorem expand_cons (c : Char) (cs : List Char) :
    expand (c :: cs) =
      (if c.isDigit then List.replicate (charVal c) ' ' else [c]) ++ expand cs := rfl

theorem expand_replicate_nondigit {k : Char} (hk : k.isDigit = false) (n : Nat) :
    expand (List.replicate n k) = List.replicate n k := by
  induction n with
  | zero => rfl
  | succ n ih =>
    rw [List.replicate_succ, expand_cons, hk]
    simp only [Bool.false_eq_true, if_false, List.singleton_append, ih, List.replicate_succ]

theorem flatMap_congr_mem {α β : Type} {l : List α} {f g : α → List β}
    (h : ∀ a ∈ l, f a = g a) : l.flatMap f = l.flatMap g := by
  induction l with
  | nil => rfl
  | cons a rest ih =>
    rw [List.flatMap_cons, List.flatMap_cons, h a (List.mem_cons_self a rest),
      ih (fun x hx => h x (List.mem_cons_of_mem a hx))]

theorem runsSplit_cons (c : Char) (rest : List Char) :
    runsSplit (c :: rest) =
      match runsSplit rest with
      | [] => [(c, 1)]
      | (k, n) :: rs => if k = c then (c, n + 1) :: rs else (c, 1) :: (k, n) :: rs := rfl

theorem runsSplit_head_key (c : Char) (rest : List Char) :
    ∃ n rs, runsSplit (c :: rest) = (c, n) :: rs ∧ 1 ≤ n := by
  rw [runsSplit_cons]
  rcases h : runsSplit rest with _ | ⟨⟨k, n⟩, rs⟩
  · exact ⟨1, [], rfl, Nat.le_refl 1⟩
  · dsimp only
    by_cases hk : k = c
    · rw [if_pos hk]
      exact ⟨n + 1, rs, rfl, by omega⟩
    · rw [if_neg hk]
      exact ⟨1, (k, n) :: rs, rfl, by omega⟩

theorem runsSplit_flat (cs : List Char) :
    (runsSplit cs).flatMap (fun kn => List.replicate kn.2 kn.1) = cs := by
  induction cs with
  | nil => rfl
  | cons c rest ih =>
    rw [runsSplit_cons]
    rcases h : runsSplit rest with _ | ⟨⟨k, n⟩, rs⟩
    · rw [h] at ih
      simp only [List.flatMap_nil] at ih
      dsimp only
      rw [List.flatMap_cons]
      simp [← ih]
    · rw [h] at ih
      dsimp only
      by_cases hk : k = c
      · subst hk
        rw [if_pos rfl]
        simp only [List.flatMap_cons] at ih ⊢
        rw [List.replicate_succ, List.cons_append, ih]
      · rw [if_neg hk]
        simp only [List.flatMap_cons] at ih ⊢
        rw [List.replicate_one, List.singleton_append, ih]

theorem runsSplit_key_mem : ∀ {cs : List Char} {k : Char} {n : Nat},
    (k, n) ∈ runsSplit cs → k ∈ cs := by
  intro cs
  induction cs with
  | nil => intro k n h; exact absurd h (by simp [runsSplit])
  | cons c rest ih =>
    intro k n h
    unfold runsSplit at h
    rcases h1 : runsSplit rest with _ | ⟨⟨k0, n0⟩, rs⟩
    · rw [h1] at h
      rcases List.mem_singleton.mp h with h2
      rw [(Prod.mk.injEq _ _ _ _).mp h2 |>.1]
      exact List.mem_cons_self c rest
    · rw [h1] at h
      dsimp only at h
      by_cases hk : k0 = c
      · rw [if_pos hk] at h
        rcases List.mem_cons.mp h with h2 | h2
        · rw [(Prod.mk.injEq _ _ _ _).mp h2 |>.1]
          exact List.mem_cons_self c rest
        · exact List.mem_cons_of_mem c (ih (h1 ▸ List.mem_cons_of_mem _ h2))
      · rw [if_neg hk] at h
        rcases List.mem_cons.mp h with h2 | h2
        · rw [(Prod.mk.injEq _ _ _ _).mp h2 |>.1]
          exact List.mem_cons_self c rest
        · exact List.mem_cons_of_mem c (ih (h1 ▸ h2))

theorem runsSplit_pos : ∀ {cs : List Char} {k : Char} {n : Nat},
    (k, n) ∈ runsSplit cs → 1 ≤ n := by
  intro cs
  induction cs with
  | nil => intro k n h; exact absurd h (by simp [runsSplit])
  | cons c rest ih =>
    intro k n h
    unfold runsSplit at h
    rcases h1 : runsSplit rest with _ | ⟨⟨k0, n0⟩, rs⟩
    · rw [h1] at h
      rcases List.mem_singleton.mp h with h2
      have hn := ((Prod.mk.injEq _ _ _ _).mp h2).2
      omega
    · rw [h1] at h
      dsimp only at h
      have hpos0 : 1 ≤ n0 := ih (h1 ▸ List.mem_cons_self _ rs)
      by_cases hk : k0 = c
      · rw [if_pos hk] at h
        rcases List.mem_cons.mp h with h2 | h2
        · have hn := ((Prod.mk.injEq _ _ _ _).mp h2).2
          omega
        · exact ih (h1 ▸ List.mem_cons_of_mem _ h2)
      · rw [if_neg hk] at h
        rcases List.mem_cons.mp h with h2 | h2
        · have hn := ((Prod.mk.injEq _ _ _ _).mp h2).2
          omega
        · exact ih (h1 ▸ h2)

theorem runsSplit_len_le : ∀ {cs : List Char} {k : Char} {n : Nat},
    (k, n) ∈ runsSplit cs → n ≤ cs.length := by
  intro cs
  induction cs with
  | nil => intro k n h; exact absurd h (by simp [runsSplit])
  | cons c rest ih =>
    intro k n h
    unfold runsSplit at h
    rw [List.length_cons]
    rcases h1 : runsSplit rest with _ | ⟨⟨k0, n0⟩, rs⟩
    · rw [h1] at h
      rcases List.mem_singleton.mp h with h2
      rw [(Prod.mk.injEq _ _ _ _).mp h2 |>.2]
      omega
    · rw [h1] at h
      dsimp only at h
      by_cases hk : k0 = c
      · rw [if_pos hk] at h
        rcases List.mem_cons.mp h with h2 | h2
        · have hn0 : n0 ≤ rest.length := ih (h1 ▸ List.mem_cons_self _ rs)
          rw [(Prod.mk.injEq _ _ _ _).mp h2 |>.2]
          omega
        · have := ih (h1 ▸ List.mem_cons_of_mem _ h2)
          omega
      · rw [if_neg hk] at h
        rcases List.mem_cons.mp h with h2 | h2
        · rw [(Prod.mk.injEq _ _ _ _).mp h2 |>.2]
          omega
        · have := ih (h1 ▸ h2)
          omega

theorem expand_rleEncode {cs : List Char} (hd : ∀ c ∈ cs, c.isDigit = false)
    (hb : ∀ kn ∈ runsSplit cs, kn.2 ≤ 9) :
    expand (rleEncode cs) = cs := by
  unfold rleEncode
  have hflat : ∀ (rs : List (Char × Nat)),
      expand (rs.flatMap rleEmit) = rs.flatMap (fun kn => expand (rleEmit kn)) := by
    intro rs
    induction rs with
    | nil => rfl
    | cons kn rest ih => rw [List.flatMap_cons, expand_append, ih, List.flatMap_cons]
  rw [hflat]
  have hpoint : ∀ kn ∈ runsSplit cs, expand (rleEmit kn) = List.replicate kn.2 kn.1 := by
    intro ⟨k, n⟩ hkn
    unfold rleEmit
    by_cases hk : k = ' '
    · rw [if_pos hk]
      dsimp only
      have h1 : 1 ≤ n := runsSplit_pos hkn
      have h9 : n ≤ 9 := hb _ hkn
      rw [natChars_single h1 h9, expand_cons, isDigit_digitChar (by omega),
        charVal_digitChar (by omega), hk]
      simp [expand]
    · rw [if_neg hk]
      dsimp only
      exact expand_replicate_nondigit (hd k (runsSplit_key_mem hkn)) n
  have hcong : (runsSplit cs).flatMap (fun kn => expand (rleEmit kn)) =
      (runsSplit cs).flatMap (fun kn => List.replicate kn.2 kn.1) := flatMap_congr_mem hpoint
  rw [hcong]
  exact runsSplit_flat cs

theorem rleEncode_no_space (cs : List Char) : ' ' ∉ rleEncode cs := by
  unfold rleEncode
  intro hmem
  rw [List.mem_flatMap] at hmem
  obtain ⟨⟨k, n⟩, hkn, hmem⟩ := hmem
  unfold rleEmit at hmem
  by_cases hk : k = ' '
  · rw [if_pos hk] at hmem
    exact natChars_no_space hmem
  · rw [if_neg hk] at hmem
    dsimp only at hmem
    exact hk (List.eq_of_mem_replicate hmem).symm

theorem splitChar_ne_nil (sep : Char) (xs : List Char) : splitChar sep xs ≠ [] := by
  cases xs with
  | nil => simp [splitChar]
  | cons c rest =>
    unfold splitChar
    rcases h : splitChar sep rest with _ | ⟨s, ss⟩
    · simp
    · dsimp only
      by_cases hc : c = sep
      · rw [if_pos hc]; simp
      · rw [if_neg hc]; simp

theorem splitChar_cons (sep c : Char) (rest : List Char) :
    splitChar sep (c :: rest) =
      match splitChar sep rest with
      | [] => [[]]
      | s :: ss => if c = sep then [] :: s :: ss else (c :: s) :: ss := rfl

theorem splitChar_no_sep (sep : Char) : ∀ {xs : List Char}, sep ∉ xs →
    splitChar sep xs = [xs] := by
  intro xs
  induction xs with
  | nil => intro _; rfl
  | cons c rest ih =>
    intro h
    rw [splitChar_cons, ih (fun hh => h (List.mem_cons_of_mem c hh))]
    dsimp only
    rw [if_neg (fun hh : c = sep => h (List.mem_cons.mpr (Or.inl hh.symm)))]

theorem splitChar_append (sep : Char) : ∀ {xs ys : List Char}, sep ∉ xs →
    splitChar sep (xs ++ sep :: ys) = xs :: splitChar sep ys := by
  intro xs
  induction xs with
  | nil =>
    intro ys _
    show splitChar sep (sep :: ys) = [] :: splitChar sep ys
    rw [splitChar_cons]
    rcases h : splitChar sep ys with _ | ⟨s, ss⟩
    · exact absurd h (splitChar_ne_nil sep ys)
    · dsimp only
      rw [if_pos rfl]
  | cons c rest ih =>
    intro ys h
    show splitChar sep (c :: (rest ++ sep :: ys)) = (c :: rest) :: splitChar sep ys
    rw [splitChar_cons, ih (fun hh => h (List.mem_cons_of_mem c hh))]
    dsimp only
    rw [if_neg (fun hh : c = sep => h (List.mem_cons.mpr (Or.inl hh.symm)))]

theorem runsSplit_append (sep : Char) :
    ∀ {xs ys : List Char}, sep ∉ xs →
      (∀ kn rs, runsSplit ys = kn :: rs → kn.1 ≠ sep) →
      runsSplit (xs ++ sep :: ys) = runsSplit xs ++ (sep, 1) :: runsSplit ys := by
  intro xs
  induction xs with
  | nil =>
    intro ys _ hy
    have h0 : runsSplit ([] : List Char) = [] := rfl
    rw [List.nil_append, runsSplit_cons, h0, List.nil_append]
    rcases h : runsSplit ys with _ | ⟨⟨k, n⟩, rs⟩
    · rfl
    · dsimp only
      rw [if_neg (hy (k, n) rs h)]
  | cons a rest ih =>
    intro ys h hy
    have ha : ¬ a = sep := fun hh => h (List.mem_cons.mpr (Or.inl hh.symm))
    have hrest : sep ∉ rest := fun hh => h (List.mem_cons_of_mem a hh)
    rw [List.cons_append, runsSplit_cons, runsSplit_cons, ih hrest hy]
    rcases h2 : runsSplit rest with _ | ⟨⟨k, n⟩, rs⟩
    · rw [List.nil_append]
      dsimp only
      rw [if_neg (fun hh : sep = a => ha hh.symm)]
      rfl
    · rw [List.cons_append]
      dsimp only
      by_cases hk : k = a
      · rw [if_pos hk, if_pos hk]
        simp
      · rw [if_neg hk, if_neg hk]
        simp

theorem joinRows_cons (r : List Char) (rest : List (List Char)) (hne : rest ≠ []) :
    joinRows (r :: rest) = r ++ '/' :: joinRows rest := by
  cases rest with
  | nil => exact absurd rfl hne
  | cons r2 rest2 => rfl

theorem joinRows_head_key (rows : List (List Char)) (hne : ∀ r ∈ rows, r ≠ [])
    (hs : ∀ r ∈ rows, '/' ∉ r) :
    ∀ kn rs, runsSplit (joinRows rows) = kn :: rs → kn.1 ≠ '/' := by
  cases rows with
  | nil =>
    intro kn rs hval
    exact absurd hval (by simp [joinRows, runsSplit])
  | cons r rest =>
    intro kn rs hval
    rcases hr : r with _ | ⟨c, r2⟩
    · exact absurd hr (hne r (List.mem_cons_self r rest))
    · have hj : ∃ tail, joinRows (r :: rest) = c :: tail := by
        cases rest with
        | nil => exact ⟨r2, by rw [hr]; rfl⟩
        | cons q qs => exact ⟨r2 ++ '/' :: joinRows (q :: qs), by rw [hr]; rfl⟩
      obtain ⟨tail, hj⟩ := hj
      rw [hj] at hval
      obtain ⟨n0, rs0, heq, _⟩ := runsSplit_head_key c tail
      rw [heq] at hval
      injection hval with h1 _
      rw [← h1]
      intro hc
      refine hs r (List.mem_cons_self r rest) ?_
      rw [hr]
      exact hc ▸ List.mem_cons_self c r2

theorem runsSplit_joinRows_bound : ∀ (rows : List (List Char)),
    (∀ r ∈ rows, r.length ≤ 9 ∧ '/' ∉ r ∧ r ≠ []) →
    ∀ kn ∈ runsSplit (joinRows rows), kn.2 ≤ 9 := by
  intro rows
  induction rows with
  | nil =>
    intro _ kn h
    exact absurd h (by simp [joinRows, runsSplit])
  | cons r rest ih =>
    intro hr kn hkn
    obtain ⟨k, n⟩ := kn
    cases rest with
    | nil =>
      have hkn2 : (k, n) ∈ runsSplit r := hkn
      exact Nat.le_trans (runsSplit_len_le hkn2) (hr r (List.mem_cons_self r [])).1
    | cons q qs =>
      rw [joinRows_cons r (q :: qs) (by simp),
        runsSplit_append '/' (hr r (List.mem_cons_self r _)).2.1
          (joinRows_head_key (q :: qs)
            (fun x hx => (hr x (List.mem_cons_of_mem r hx)).2.2)
            (fun x hx => (hr x (List.mem_cons_of_mem r hx)).2.1))] at hkn
      rcases List.mem_append.mp hkn with h | h
      · exact Nat.le_trans (runsSplit_len_le h) (hr r (List.mem_cons_self r _)).1
      · rcases List.mem_cons.mp h with h2 | h2
        · have := ((Prod.mk.injEq _ _ _ _).mp h2).2
          omega
        · exact ih (fun x hx => hr x (List.mem_cons_of_mem r hx)) (k, n) h2

theorem joinRows_nondigit : ∀ (rows : List (List Char)),
    (∀ r ∈ rows, ∀ c ∈ r, c.isDigit = false) →
    ∀ c ∈ joinRows rows, c.isDigit = false := by
  intro rows
  induction rows with
  | nil =>
    intro _ c h
    exact absurd h (by simp [joinRows])
  | cons r rest ih =>
    intro hr c hc
    cases rest with
    | nil => exact hr r (List.mem_cons_self r []) c hc
    | cons q qs =>
      rw [joinRows_cons r (q :: qs) (by simp)] at hc
      rcases List.mem_append.mp hc with h | h
      · exact hr r (List.mem_cons_self r _) c h
      · rcases List.mem_cons.mp h with h2 | h2
        · rw [h2]; rfl
        · exact ih (fun x hx => hr x (List.mem_cons_of_mem r hx)) c h2

theorem splitChar_joinRows : ∀ (rows : List (List Char)), rows ≠ [] →
    (∀ r ∈ rows, '/' ∉ r) → splitChar '/' (joinRows rows) = rows := by
  intro rows
  induction rows with
  | nil => intro h; exact absurd rfl h
  | cons r rest ih =>
    intro _ hs
    cases rest with
    | nil => exact splitChar_no_sep '/' (hs r (List.mem_cons_self r []))
    | cons q qs =>
      rw [joinRows_cons r (q :: qs) (by simp),
        splitChar_append '/' (hs r (List.mem_cons_self r _)),
        ih (by simp) (fun x hx => hs x (List.mem_cons_of_mem r hx))]

/-! The State Codec round trip, part 3: rank rows and piece letters. -/

theorem abbreviation_nondigit (pc : Piece) : (pc.abbreviation).isDigit = false := by
  rcases pc with ⟨k, c⟩
  cases k <;> cases c <;> decide

theorem abbreviation_ne_space (pc : Piece) : pc.abbreviation ≠ ' ' := by
  rcases pc with ⟨k, c⟩
  cases k <;> cases c <;> decide

theorem abbreviation_ne_slash (pc : Piece) : pc.abbreviation ≠ '/' := by
  rcases pc with ⟨k, c⟩
  cases k <;> cases c <;> decide

theorem pieceOfLetter_abbreviation (pc : Piece) : pieceOfLetter pc.abbreviation = some pc := by
  rcases pc with ⟨k, c⟩
  cases k <;> cases c <;> decide

theorem axisYChar_inj {y y2 : Nat} (hy : y ≤ 7) (hy2 : y2 ≤ 7) :
    axisYChar y = axisYChar y2 → y = y2 := by
  interval_cases y <;> interval_cases y2 <;> decide

theorem digitChar_inj {n n2 : Nat} (hn : n ≤ 9) (hn2 : n2 ≤ 9) :
    digitChar n = digitChar n2 → n = n2 := by
  interval_cases n <;> interval_cases n2 <;> decide

theorem coordStr_ne {y y2 n n2 : Nat} (hy : y ≤ 7) (hy2 : y2 ≤ 7) (hn : n ≤ 9) (hn2 : n2 ≤ 9)
    (h : y ≠ y2 ∨ n ≠ n2) : coordStr y n ≠ coordStr y2 n2 := by
  intro hc
  have hdata : [axisYChar y, digitChar n] = [axisYChar y2, digitChar n2] := congrArg String.data hc
  rcases h with h | h
  · exact h (axisYChar_inj hy hy2 (List.cons.inj hdata).1)
  · exact h (digitChar_inj hn hn2 (List.cons.inj (List.cons.inj hdata).2).1)

theorem rowChars_length (b : Board) (n : Nat) : (rowChars b n).length = 8 := by
  simp [rowChars]

theorem rowChars_mem (b : Board) (n : Nat) :
    ∀ c ∈ rowChars b n, (∃ pc : Piece, c = pc.abbreviation) ∨ c = ' ' := by
  intro c hc
  unfold rowChars at hc
  rw [List.mem_map] at hc
  obtain ⟨y, _, hy⟩ := hc
  rcases h : sqLookup b.squares (coordStr y n) with _ | pc
  · rw [h] at hy
    exact Or.inr hy.symm
  · rw [h] at hy
    exact Or.inl ⟨pc, hy.symm⟩

theorem rowChars_nondigit (b : Board) (n : Nat) : ∀ c ∈ rowChars b n, c.isDigit = false := by
  intro c hc
  rcases rowChars_mem b n c hc with ⟨pc, rfl⟩ | rfl
  · exact abbreviation_nondigit pc
  · rfl

theorem rowChars_no_slash (b : Board) (n : Nat) : '/' ∉ rowChars b n := by
  intro hc
  rcases rowChars_mem b n '/' hc with ⟨pc, hpc⟩ | hpc
  · exact abbreviation_ne_slash pc hpc.symm
  · exact absurd hpc (by decide)

theorem rowChars_letters (b : Board) (n : Nat) :
    ∀ ch ∈ rowChars b n, ch = ' ' ∨ (pieceOfLetter ch).isSome := by
  intro ch hch
  rcases rowChars_mem b n ch hch with ⟨pc, rfl⟩ | rfl
  · exact Or.inr (by rw [pieceOfLetter_abbreviation pc]; rfl)
  · exact Or.inl rfl

theorem rowChars_getD (b : Board) (n j : Nat) (hj : j < 8) :
    (rowChars b n).getD j ' ' =
      (match sqLookup b.squares (coordStr j n) with
       | some pc => pc.abbreviation
       | none => ' ') := by
  unfold rowChars
  rw [List.getD_eq_getElem?_getD, List.getElem?_map, List.getElem?_range hj]
  rfl

theorem exportRows_length (b : Board) : (exportRows b).length = 8 := by
  simp [exportRows]

theorem exportRows_getD (b : Board) (i : Nat) (hi : i < 8) :
    (exportRows b).getD i [] = rowChars b (8 - i) := by
  unfold exportRows
  rw [List.getD_eq_getElem?_getD, List.getElem?_map, List.getElem?_range hi]
  rfl

theorem exportRows_mem (b : Board) : ∀ r ∈ exportRows b, ∃ n, 1 ≤ n ∧ n ≤ 8 ∧ r = rowChars b n := by
  intro r hr
  unfold exportRows at hr
  rw [List.mem_map] at hr
  obtain ⟨x, hx, hr⟩ := hr
  rw [List.mem_range] at hx
  exact ⟨8 - x, by omega, by omega, hr.symm⟩

theorem exportPlacementRaw_eq_joinRows (b : Board) :
    exportPlacementRaw b = joinRows (exportRows b) := by
  unfold exportPlacementRaw
  have hgen : ∀ (rows : List (List Char)), rows ≠ [] →
      ((rows.flatMap (fun r => r ++ ['/'])).dropLast) = joinRows rows := by
    intro rows
    induction rows with
    | nil => intro h; exact absurd rfl h
    | cons r rest ih =>
      intro _
      cases rest with
      | nil =>
        have hfm : ([r] : List (List Char)).flatMap (fun r => r ++ ['/']) = r ++ ['/'] := by
          simp
        rw [hfm]
        simp [joinRows]
      | cons q qs =>
        rw [joinRows_cons r (q :: qs) (by simp), List.flatMap_cons]
        have hne : (q :: qs).flatMap (fun r => r ++ ['/']) ≠ [] := by
          rw [List.flatMap_cons]
          simp
        rw [List.dropLast_append_of_ne_nil (r ++ ['/']) hne, ih (by simp)]
        simp
  apply hgen
  simp [exportRows]

/-! The State Codec round trip, part 4: the placement loops of load. -/

theorem placeRow_spec : ∀ (row : List Char) (sq : Squares) (x y0 : Nat),
    x ≤ 7 → y0 + row.length ≤ 8 →
    (∀ ch ∈ row, ch = ' ' ∨ (pieceOfLetter ch).isSome) →
    ∃ out, placeRow sq x y0 row = some out ∧
      (∀ j, j < row.length →
        sqLookup out (coordStr (y0 + j) (8 - x)) =
          (if row.getD j ' ' = ' ' then sqLookup sq (coordStr (y0 + j) (8 - x))
           else pieceOfLetter (row.getD j ' '))) ∧
      (∀ c, (∀ j, j < row.length → coordStr (y0 + j) (8 - x) ≠ c) →
        sqLookup out c = sqLookup sq c) := by
  intro row
  induction row with
  | nil =>
    intro sq x y0 _ _ _
    exact ⟨sq, rfl, fun j hj => absurd hj (by simp), fun c _ => rfl⟩
  | cons ch rest ih =>
    intro sq x y0 hx hlen hch
    rw [List.length_cons] at hlen
    have hy0 : y0 ≤ 7 := by omega
    have hrank9 : 8 - x ≤ 9 := by omega
    by_cases hsp : ch = ' '
    · obtain ⟨out, hplace, hhit, hmiss⟩ := ih sq x (y0 + 1) hx (by omega)
        (fun c hc => hch c (List.mem_cons_of_mem ch hc))
      refine ⟨out, ?_, ?_, ?_⟩
      · unfold placeRow
        rw [if_pos hsp]
        exact hplace
      · intro j hj
        rcases j with _ | j2
        · rw [List.getD_cons_zero, if_pos hsp, Nat.add_zero]
          exact hmiss (coordStr y0 (8 - x)) (fun j2 hj2 =>
            coordStr_ne (by omega) hy0 hrank9 hrank9 (Or.inl (by omega)))
        · rw [List.length_cons] at hj
          rw [List.getD_cons_succ, show y0 + (j2 + 1) = y0 + 1 + j2 from by omega]
          exact hhit j2 (by omega)
      · intro c hc
        exact hmiss c (fun j2 hj2 => by
          have hcc := hc (j2 + 1) (by rw [List.length_cons]; omega)
          rwa [show y0 + (j2 + 1) = y0 + 1 + j2 from by omega] at hcc)
    · have hpiece : (pieceOfLetter ch).isSome :=
        (hch ch (List.mem_cons_self ch rest)).resolve_left hsp
      obtain ⟨pc, hpc⟩ := Option.isSome_iff_exists.mp hpiece
      have hcoord : coordOfLoad x y0 = some (coordStr y0 (8 - x)) := by
        unfold coordOfLoad
        rw [if_pos ⟨hx, hy0⟩]
      obtain ⟨out, hplace, hhit, hmiss⟩ := ih (sqSet sq (coordStr y0 (8 - x)) pc) x (y0 + 1)
        hx (by omega) (fun c hc => hch c (List.mem_cons_of_mem ch hc))
      refine ⟨out, ?_, ?_, ?_⟩
      · unfold placeRow
        rw [if_neg hsp, hpc, hcoord]
        exact hplace
      · intro j hj
        rcases j with _ | j2
        · rw [List.getD_cons_zero, if_neg hsp, Nat.add_zero, hpc]
          rw [hmiss (coordStr y0 (8 - x)) (fun j2 hj2 =>
            coordStr_ne (by omega) hy0 hrank9 hrank9 (Or.inl (by omega)))]
          rw [sqLookup_set, if_pos rfl]
        · rw [List.length_cons] at hj
          rw [List.getD_cons_succ, show y0 + (j2 + 1) = y0 + 1 + j2 from by omega]
          rw [hhit j2 (by omega)]
          by_cases hsp2 : rest.getD j2 ' ' = ' '
          · rw [if_pos hsp2, if_pos hsp2, sqLookup_set,
              if_neg (coordStr_ne hy0 (by omega) hrank9 hrank9 (Or.inl (by omega)))]
          · rw [if_neg hsp2, if_neg hsp2]
      · intro c hc
        rw [hmiss c (fun j2 hj2 => by
            have hcc := hc (j2 + 1) (by rw [List.length_cons]; omega)
            rwa [show y0 + (j2 + 1) = y0 + 1 + j2 from by omega] at hcc),
          sqLookup_set,
          if_neg (show ¬ coordStr y0 (8 - x) = c by
            have hcc := hc 0 (by rw [List.length_cons]; omega)
            rwa [Nat.add_zero] at hcc)]

theorem placeRows_spec : ∀ (rows : List (List Char)) (sq : Squares) (x : Nat),
    x + rows.length ≤ 8 →
    (∀ r ∈ rows, r.length = 8) →
    (∀ r ∈ rows, ∀ ch ∈ r, ch = ' ' ∨ (pieceOfLetter ch).isSome) →
    ∃ out, placeRows sq x rows = some out ∧
      (∀ i j, i < rows.length → j < 8 →
        sqLookup out (coordStr j (8 - (x + i))) =
          (if (rows.getD i []).getD j ' ' = ' ' then sqLookup sq (coordStr j (8 - (x + i)))
           else pieceOfLetter ((rows.getD i []).getD j ' '))) ∧
      (∀ c, (∀ i j, i < rows.length → j < 8 → coordStr j (8 - (x + i)) ≠ c) →
        sqLookup out c = sqLookup sq c) := by
  intro rows
  induction rows with
  | nil =>
    intro sq x _ _ _
    exact ⟨sq, rfl, fun i j hi _ => absurd hi (by simp), fun c _ => rfl⟩
  | cons row rest ih =>
    intro sq x hx hlen hch
    rw [List.length_cons] at hx
    have hrow8 : row.length = 8 := hlen row (List.mem_cons_self row rest)
    obtain ⟨out1, hplace1, hhit1, hmiss1⟩ := placeRow_spec row sq x 0 (by omega)
      (by omega) (hch row (List.mem_cons_self row rest))
    obtain ⟨out, hplace, hhit, hmiss⟩ := ih out1 (x + 1) (by omega)
      (fun r hr => hlen r (List.mem_cons_of_mem row hr))
      (fun r hr => hch r (List.mem_cons_of_mem row hr))
    refine ⟨out, ?_, ?_, ?_⟩
    · unfold placeRows
      rw [hplace1]
      exact hplace
    · intro i j hi hj
      rcases i with _ | i2
      · rw [List.getD_cons_zero, Nat.add_zero]
        have hdisj : ∀ i2 j2, i2 < rest.length → j2 < 8 →
            coordStr j2 (8 - (x + 1 + i2)) ≠ coordStr j (8 - x) := by
          intro i2 j2 hi2 hj2
          exact coordStr_ne (by omega) (by omega) (by omega) (by omega) (Or.inr (by omega))
        rw [hmiss (coordStr j (8 - x)) hdisj]
        have hh := hhit1 j (by omega)
        rwa [Nat.zero_add] at hh
      · rw [List.length_cons] at hi
        rw [List.getD_cons_succ, show x + (i2 + 1) = x + 1 + i2 from by omega,
          hhit i2 j (by omega) hj]
        by_cases hsp : (rest.getD i2 []).getD j ' ' = ' '
        · rw [if_pos hsp, if_pos hsp,
            hmiss1 _ (fun j2 hj2 => by
              rw [Nat.zero_add]
              exact coordStr_ne (by omega) (by omega) (by omega) (by omega)
                (Or.inr (by omega)))]
        · rw [if_neg hsp, if_neg hsp]
    · intro c hc
      rw [hmiss c (fun i2 j2 hi2 hj2 => by
          have hcc := hc (i2 + 1) j2 (by rw [List.length_cons]; omega) hj2
          rwa [show x + (i2 + 1) = x + 1 + i2 from by omega] at hcc),
        hmiss1 c (fun j2 hj2 => by
          have hcc := hc 0 j2 (by rw [List.length_cons]; omega) (by omega)
          rw [Nat.add_zero] at hcc
          rwa [Nat.zero_add])]

/-! The State Codec round trip, part 5: the assembled theorem. -/

theorem roundTrips_of_WF (b : Board) (hwf : WF b) : RoundTrips b := by
  obtain ⟨hkeys, hturn, hcne, hcsp, hene, hesp⟩ := hwf
  have hrows_len : (exportRows b).length = 8 := exportRows_length b
  have hr8 : ∀ r ∈ exportRows b, r.length = 8 := by
    intro r hr
    obtain ⟨n, _, _, rfl⟩ := exportRows_mem b r hr
    exact rowChars_length b n
  have hrne : ∀ r ∈ exportRows b, r ≠ [] := by
    intro r hr h0
    have h8 := hr8 r hr
    rw [h0] at h8
    simp at h8
  have hrnd : ∀ r ∈ exportRows b, ∀ c ∈ r, c.isDigit = false := by
    intro r hr
    obtain ⟨n, _, _, rfl⟩ := exportRows_mem b r hr
    exact rowChars_nondigit b n
  have hrns : ∀ r ∈ exportRows b, '/' ∉ r := by
    intro r hr
    obtain ⟨n, _, _, rfl⟩ := exportRows_mem b r hr
    exact rowChars_no_slash b n
  have hletters : ∀ r ∈ exportRows b, ∀ ch ∈ r, ch = ' ' ∨ (pieceOfLetter ch).isSome := by
    intro r hr
    obtain ⟨n, _, _, rfl⟩ := exportRows_mem b r hr
    exact rowChars_letters b n
  have hrows_ne : exportRows b ≠ [] := by
    intro h0
    rw [h0] at hrows_len
    simp at hrows_len
  have hexpand : expand (rleEncode (exportPlacementRaw b)) = joinRows (exportRows b) := by
    rw [exportPlacementRaw_eq_joinRows]
    exact expand_rleEncode (joinRows_nondigit (exportRows b) hrnd)
      (runsSplit_joinRows_bound (exportRows b)
        (fun r hr => ⟨by rw [hr8 r hr]; omega, hrns r hr, hrne r hr⟩))
  have hsplitrows : splitChar '/' (joinRows (exportRows b)) = exportRows b :=
    splitChar_joinRows (exportRows b) hrows_ne hrns
  obtain ⟨out, hplace, hhit, hmiss⟩ := placeRows_spec (exportRows b) [] 0
    (by omega) hr8 hletters
  have hturn2 : (b.player_turn.data.headD '?') ≠ ' ' ∧
      ((if [b.player_turn.data.headD '?'] = ['w'] then "white" else "black") =
        b.player_turn) := by
    rcases hturn with ht | ht <;> rw [ht] <;> exact ⟨by decide, by decide⟩
  have hdata : (Chess.«export» b).data =
      rleEncode (exportPlacementRaw b) ++ ' ' :: (b.player_turn.data.headD '?') ::
      ' ' :: (b.castling.data ++ ' ' :: (b.en_passant.data ++ ' ' ::
      (natChars b.halfmove_clock ++ ' ' :: natChars b.fullmove_number))) := rfl
  have hfields : splitChar ' ' ((Chess.«export» b).data) =
      [rleEncode (exportPlacementRaw b), [b.player_turn.data.headD '?'], b.castling.data,
        b.en_passant.data, natChars b.halfmove_clock, natChars b.fullmove_number] := by
    rw [hdata, splitChar_append ' ' (rleEncode_no_space _),
      show (b.player_turn.data.headD '?') :: ' ' :: (b.castling.data ++ ' ' ::
          (b.en_passant.data ++ ' ' :: (natChars b.halfmove_clock ++ ' ' ::
            natChars b.fullmove_number))) =
        [b.player_turn.data.headD '?'] ++ ' ' :: (b.castling.data ++ ' ' ::
          (b.en_passant.data ++ ' ' :: (natChars b.halfmove_clock ++ ' ' ::
            natChars b.fullmove_number))) from rfl,
      splitChar_append ' ' (fun hm => hturn2.1 (List.mem_singleton.mp hm).symm),
      splitChar_append ' ' hcsp, splitChar_append ' ' hesp,
      splitChar_append ' ' natChars_no_space, splitChar_no_sep ' ' natChars_no_space]
  refine ⟨{ squares := out
            player_turn := if [b.player_turn.data.headD '?'] = ['w'] then "white" else "black"
            castling := String.mk b.castling.data
            en_passant := String.mk b.en_passant.data
            halfmove_clock := b.halfmove_clock
            fullmove_number := b.fullmove_number
            in_check := ("", false)
            in_mate := ("", false) }, ?_, ?_, ?_, ?_, ?_, ?_, ?_⟩
  · unfold load
    rw [hfields]
    dsimp only [List.get?]
    rw [hexpand, hsplitrows, hplace]
    dsimp only
    rw [parseNat_natChars, parseNat_natChars]
  · intro y n hy hn1 hn8
    dsimp only
    have hh := hhit (8 - n) y (by omega) hy
    rw [show 8 - (0 + (8 - n)) = n from by omega] at hh
    have hgetrow : (exportRows b).getD (8 - n) [] = rowChars b n := by
      rw [exportRows_getD b (8 - n) (by omega), show 8 - (8 - n) = n from by omega]
    rw [hgetrow, rowChars_getD b n y hy] at hh
    rw [hh]
    rcases hlook : sqLookup b.squares (coordStr y n) with _ | pc
    · dsimp only
      rw [if_pos rfl]
      rfl
    · dsimp only
      rw [if_neg (abbreviation_ne_space pc), pieceOfLetter_abbreviation pc]
  · exact hturn2.2
  · rfl
  · rfl
  · rfl
  · rfl

theorem do_move_castling (b : Board) (p1 p2 : String) :
    (do_move b p1 p2).castling = b.castling := by
  unfold do_move
  rcases sqLookup b.squares p1 <;> rfl

theorem do_move_en_passant (b : Board) (p1 p2 : String) :
    (do_move b p1 p2).en_passant = b.en_passant := by
  unfold do_move
  rcases sqLookup b.squares p1 <;> rfl

theorem move_success_inversion (cat : Catalog) (hist : List String) (b : Board)
    (p1 p2 : String) (hist2 : List String) (b2 : Board)
    (h : moveResult cat hist b p1 p2 = (none, hist2, b2)) :
    ∃ (piece : Piece) (dest : Option Piece) (legal : List (Option String)) (chk : Bool),
      getitemStr b (pyUpper p1) = Except.ok (some piece) ∧
      getitemStr b (pyUpper p2) = Except.ok dest ∧
      all_legal_piece_moves cat b (pyUpper p1) = Except.ok legal ∧
      some (pyUpper p2) ∈ legal ∧
      hist2 = (finish_move hist (do_move b (pyUpper p1) (pyUpper p2)) piece dest
        (pyUpper p2)).1 ∧
      b2 = (if chk
        then { ((finish_move hist (do_move b (pyUpper p1) (pyUpper p2)) piece dest
            (pyUpper p2)).2) with in_check := (colorStr (get_enemy piece.color), true) }
        else { ((finish_move hist (do_move b (pyUpper p1) (pyUpper p2)) piece dest
            (pyUpper p2)).2) with in_check := ("", false) }) := by
  unfold moveResult moveCore at h
  rcases h1 : getitemStr b (pyUpper p1) with e1 | piece?
  · rw [h1] at h
    dsimp only at h
    simp at h
  rw [h1] at h
  dsimp only at h
  rcases h2 : getitemStr b (pyUpper p2) with e2 | dest
  · rw [h2] at h
    dsimp only at h
    simp at h
  rw [h2] at h
  dsimp only at h
  rcases piece? with _ | piece
  · dsimp only at h
    simp at h
  dsimp only at h
  by_cases ht : b.player_turn ≠ colorStr piece.color
  · rw [if_pos ht] at h
    simp at h
  rw [if_neg ht] at h
  rcases h4 : all_legal_piece_moves cat b (pyUpper p1) with e4 | legal
  · rw [h4] at h
    dsimp only at h
    simp at h
  rw [h4] at h
  dsimp only at h
  by_cases hmem : some (pyUpper p2) ∈ legal
  · rw [if_pos hmem] at h
    rcases h5 : is_in_check cat
        ((finish_move hist (do_move b (pyUpper p1) (pyUpper p2)) piece dest (pyUpper p2)).2)
        (colorStr (get_enemy piece.color)) with e5 | chk
    · rw [h5] at h
      dsimp only at h
      simp at h
    · rw [h5] at h
      dsimp only at h
      simp only [Prod.mk.injEq] at h
      exact ⟨piece, dest, legal, chk, rfl, rfl, rfl, hmem, h.2.1.symm, h.2.2.symm⟩
  · rw [if_neg hmem] at h
    simp at h

theorem move_success_WF (cat : Catalog) (hcat : CatalogOk cat) (hist : List String)
    (b : Board) (hwf : WF b) (p1 p2 : String) (hist2 : List String) (b2 : Board)
    (h : moveResult cat hist b p1 p2 = (none, hist2, b2)) : WF b2 := by
  obtain ⟨piece, dest, legal, chk, h1, h2, h4, hmem, hh, hb2⟩ :=
    move_success_inversion cat hist b p1 p2 hist2 b2 h
  obtain ⟨hkeys, hturn, hcne, hcsp, hene, hesp⟩ := hwf
  have h4a : addMoves cat b (pyUpper p1) (cat piece (pyUpper p1) b.squares) =
      Except.ok legal := by
    unfold all_legal_piece_moves at h4
    rw [h1] at h4
    exact h4
  have hveq : validSq (pyUpper p2) = true := hcat _ _ _ _ (mem_addMoves h4a hmem)
  have hkeys2 : KeysOk (do_move b (pyUpper p1) (pyUpper p2)) := do_move_keysOk hkeys hveq
  have hfinsq : ((finish_move hist (do_move b (pyUpper p1) (pyUpper p2)) piece dest
      (pyUpper p2)).2).squares = (do_move b (pyUpper p1) (pyUpper p2)).squares := rfl
  have hfintn : ((finish_move hist (do_move b (pyUpper p1) (pyUpper p2)) piece dest
      (pyUpper p2)).2).player_turn = colorStr (get_enemy piece.color) := rfl
  have hfincs : ((finish_move hist (do_move b (pyUpper p1) (pyUpper p2)) piece dest
      (pyUpper p2)).2).castling = b.castling := by
    rw [show ((finish_move hist (do_move b (pyUpper p1) (pyUpper p2)) piece dest
        (pyUpper p2)).2).castling = (do_move b (pyUpper p1) (pyUpper p2)).castling from rfl,
      do_move_castling]
  have hfinep : ((finish_move hist (do_move b (pyUpper p1) (pyUpper p2)) piece dest
      (pyUpper p2)).2).en_passant = b.en_passant := by
    rw [show ((finish_move hist (do_move b (pyUpper p1) (pyUpper p2)) piece dest
        (pyUpper p2)).2).en_passant = (do_move b (pyUpper p1) (pyUpper p2)).en_passant from rfl,
      do_move_en_passant]
  have hsq : b2.squares = (do_move b (pyUpper p1) (pyUpper p2)).squares := by
    rw [hb2]
    cases chk
    · rw [if_neg (by decide)]
      exact hfinsq
    · rw [if_pos (by decide)]
      exact hfinsq
  have hturn2 : b2.player_turn = colorStr (get_enemy piece.color) := by
    rw [hb2]
    cases chk
    · rw [if_neg (by decide)]
      exact hfintn
    · rw [if_pos (by decide)]
      exact hfintn
  have hcast : b2.castling = b.castling := by
    rw [hb2]
    cases chk
    · rw [if_neg (by decide)]
      exact hfincs
    · rw [if_pos (by decide)]
      exact hfincs
  have hen : b2.en_passant = b.en_passant := by
    rw [hb2]
    cases chk
    · rw [if_neg (by decide)]
      exact hfinep
    · rw [if_pos (by decide)]
      exact hfinep
  refine ⟨fun e he => hkeys2 e (hsq ▸ he), ?_, ?_, ?_, ?_, ?_⟩
  · rw [hturn2]
    cases get_enemy piece.color
    · exact Or.inl rfl
    · exact Or.inr rfl
  · rw [hcast]
    exact hcne
  · rw [hcast]
    exact hcsp
  · rw [hen]
    exact hene
  · rw [hen]
    exact hesp

theorem WF_initial : WF initialBoard := by
  refine ⟨?_, ?_, ?_, ?_, ?_, ?_⟩ <;> decide

theorem Reachable_WF (cat : Catalog) (hcat : CatalogOk cat) (b : Board)
    (hr : Reachable cat b) : WF b := by
  induction hr with
  | init => exact WF_initial
  | step b hist hist2 p1 p2 b2 _ hmove ih =>
    exact move_success_WF cat hcat hist b ih p1 p2 hist2 b2 hmove

/-- C7: for the starting position and every board reachable from it by
successful Board.move calls (under the spec's in-bounds catalog
contract), decoding the encoded serialization — load (export b) —
succeeds and reproduces the same occupant for every board coordinate and
the same six serialized fields: piece placement, active color, castling
string, en-passant field, halfmove clock and fullmove number. -/
theorem load_export_roundtrip (cat : Catalog) (hcat : CatalogOk cat) (b : Board)
    (hr : Reachable cat b) : RoundTrips b :=
  roundTrips_of_WF b (Reachable_WF cat hcat b hr)

/-- C7 witness: the starting position round-trips. -/
theorem load_export_roundtrip_witness : RoundTrips initialBoard :=
  load_export_roundtrip catEmpty catEmpty_ok initialBoard Reachable.init

end Chess
